import Mathlib

/-!
Shallow embedding of the yaschema validation engine.

The embedding follows `src/schema/data-types/array.ts` (the `array` factory
with its `validateArray` / `asyncValidateArray` helpers) and
`src/schema/marker-types/upgraded.ts` (the `upgraded` combinator).

JavaScript runtime values are modelled by `JValue`; validation results by
`Option VError` (the `noError` sentinel is `Option.none`, and an error object
with a lazily-computed message is a `VError` constructor together with
`VError.message`).  The process-wide deprecation-warning set and the
caller-supplied `shouldYield` predicate are modelled by explicit state
(`VState`), and observable actions (child validations, yield points, logged
warnings) are recorded in an event trace (`VEvent`).
-/

namespace Yaschema

/-- A JavaScript runtime value, as far as the validators inspect one. -/
inductive JValue where
  | vnull
  | vundefined
  | vbool (b : Bool)
  | vnum (n : Int)
  | vstr (s : String)
  | varr (elems : List JValue)

/-- Modelled from the spec: `getMeaningfulTypeof` ("meaningful typeof"
formatting, `src/type-utils/get-meaningful-typeof.ts`, not under `src/`)
names the runtime type of a value for error messages. -/
def getMeaningfulTypeof : JValue → String
  | .vnull => "null"
  | .vundefined => "undefined"
  | .vbool _ => "boolean"
  | .vnum _ => "number"
  | .vstr _ => "string"
  | .varr _ => "array"

/-- Modelled from the spec: the path tracker appends `[index]` segments
(`appendPathIndex` in `src/schema/internal/utils/path-utils.ts`, not under
`src/`). -/
def appendPathIndex (path : String) (index : Nat) : String :=
  path ++ "[" ++ toString index ++ "]"

/-- Modelled from the spec: `atPath` renders the accumulated path for
inclusion in an error message (empty path renders as nothing). -/
def atPath (path : String) : String :=
  if path = "" then "" else " @ " ++ path

/-- Structured form of the lazily-computed validation error: the constructor
carries exactly the data the corresponding source error closure captures, and
`VError.message` rebuilds the source's message string. -/
inductive VError where
  | typeMismatch (expected : String) (found : String) (path : String)
  | tooShort (minLength : Nat) (foundLength : Nat) (path : String)
  | tooLong (maxLength : Nat) (foundLength : Nat) (path : String)
  | leafFailure (found : String) (path : String)
deriving DecidableEq

/-- The error-message accessor of a validation result (the source builds
these strings lazily inside `error` closures). -/
def VError.message : VError → String
  | .typeMismatch expected found path =>
      "Expected " ++ expected ++ ", found " ++ found ++ atPath path
  | .tooShort minLength foundLength path =>
      "Expected an array with at least " ++ toString minLength ++
        " element(s), found an array with " ++ toString foundLength ++
        " element(s)" ++ atPath path
  | .tooLong maxLength foundLength path =>
      "Expected an array with at most " ++ toString maxLength ++
        " element(s), found an array with " ++ toString foundLength ++
        " element(s)" ++ atPath path
  | .leafFailure found path =>
      "Leaf schema not satisfied, found " ++ found ++ atPath path

/-- The path an error is reported at. -/
def VError.path : VError → String
  | .typeMismatch _ _ p => p
  | .tooShort _ _ p => p
  | .tooLong _ _ p => p
  | .leafFailure _ p => p

/-- The per-call validation mode (`InternalValidationOptions.validation`). -/
inductive ValidationMode where
  | hard
  | soft
  | none
deriving DecidableEq

/-- Observable actions of a validation run: a child item validation invoked
through the synchronous (`checkedItem`) or asynchronous (`checkedItemAsync`)
validator, a consultation of the caller's `shouldYield` predicate, a
suspension through the caller's `yield` primitive, and a deprecation warning
sent to the logger's `warn` capability. -/
inductive VEvent where
  | checkedItem (path : String)
  | checkedItemAsync (path : String)
  | askedYield (answer : Bool)
  | yielded
  | warnLogged (uniqueName : String) (message : String)
deriving DecidableEq

/-- Explicit state threaded through a validation run: the process-wide
`alreadyLogUpgradedWarnings` set (as a list of unique names) and the answers
the caller's `shouldYield` predicate will give to successive calls. -/
structure VState where
  warned : List String
  oracle : List Bool
deriving DecidableEq

/-- Output of one validator call: the validation result, the state after the
call, and the trace of observable events of this call. -/
structure VOut where
  result : Option VError
  state : VState
  events : List VEvent
deriving DecidableEq

/-- A schema, restricted to the kinds whose validators the source provides:
leaves (modelled from the spec, see `validateLeaf`), arrays
(`src/schema/data-types/array.ts`) and the upgraded combinator
(`src/schema/marker-types/upgraded.ts`). -/
inductive Schema where
  | leaf (check : JValue → Bool) (cost : Nat) (serDes : Bool)
  | array (items : Option Schema) (minLength : Nat)
      (maxLength : Option Nat) (maxEntriesToValidate : Option Nat)
  | upgraded (uniqueName : String) (oldSchema : Schema) (newSchema : Schema)
      (deadline : Option String)

/-- The fixed default average length the array cost model assumes when no
bound is given (`ESTIMATED_AVG_ARRAY_LENGTH`). -/
def ESTIMATED_AVG_ARRAY_LENGTH : Nat := 100

/-- Whether a schema (or any descendant) requires custom
serialization/deserialization; for an array this is
`options.items?.usesCustomSerDes ?? false` (the factory's
`needsDeepSerDes`), for the upgraded combinator the disjunction of its
children's flags. -/
def Schema.usesCustomSerDes : Schema → Bool
  | .leaf _ _ serDes => serDes
  | .array items _ _ _ =>
      match items with
      | some itemSchema => itemSchema.usesCustomSerDes
      | Option.none => false
  | .upgraded _ oldSchema newSchema _ =>
      oldSchema.usesCustomSerDes || newSchema.usesCustomSerDes

/-- The cost model: a leaf reports its own constant; an array reports
`(items?.estimatedValidationTimeComplexity ?? 1) *
((needsDeepSerDes ? maxLength : maxEntriesToValidate) ??
ESTIMATED_AVG_ARRAY_LENGTH)`; the upgraded combinator reports the sum of its
children's costs. -/
def Schema.estimatedValidationTimeComplexity : Schema → Nat
  | .leaf _ cost _ => cost
  | .array items _ maxLength maxEntriesToValidate =>
      let needsDeepSerDes :=
        match items with
        | some itemSchema => itemSchema.usesCustomSerDes
        | Option.none => false
      let itemCost :=
        match items with
        | some itemSchema => itemSchema.estimatedValidationTimeComplexity
        | Option.none => 1
      itemCost *
        ((if needsDeepSerDes then maxLength else maxEntriesToValidate).getD
          ESTIMATED_AVG_ARRAY_LENGTH)
  | .upgraded _ oldSchema newSchema _ =>
      oldSchema.estimatedValidationTimeComplexity +
        newSchema.estimatedValidationTimeComplexity

/-- Whether a value is the JavaScript `undefined` sentinel (the upgraded
combinator's `value !== undefined` guard). -/
def isUndefined : JValue → Bool
  | .vundefined => true
  | _ => false

/-- The deprecation warning message the upgraded combinator logs, with the
optional deadline rendered as `after <deadline>` or `soon`. -/
def deprecationMessage (uniqueName : String) (deadline : Option String) :
    String :=
  "[DEPRECATION] The schema for " ++ uniqueName ++
    " has been upgraded and legacy support will be removed " ++
    (match deadline with
     | some d => "after " ++ d
     | Option.none => "soon") ++ "."

/-- Modelled from the spec: leaf schemas (e.g. the string schema, whose
source is not under `src/`) run a pure check that never suspends (their
synchronous and asynchronous validators coincide), and in mode `none` checks
are skipped. -/
def validateLeaf (check : JValue → Bool) (value : JValue)
    (mode : ValidationMode) (path : String) (st : VState) : VOut :=
  { result :=
      if mode = ValidationMode.none then Option.none
      else if check value then Option.none
      else some (VError.leafFailure (getMeaningfulTypeof value) path),
    state := st,
    events := [] }

/-- Whether the `index >= maxEntriesToValidate` cutoff has been reached
(false when `maxEntriesToValidate` is unset). -/
def maxEReached (maxEntriesToValidate : Option Nat) (index : Nat) : Bool :=
  match maxEntriesToValidate with
  | some maxE => index ≥ maxE
  | Option.none => false

/-- The item loop of `validateArray`: walks the remaining elements with the
running index, threading the recorded `errorResult` and the state; breaks
when the `maxEntriesToValidate` cutoff applies, and returns early at the
first item error when `shouldStopOnFirstError` holds.  The returned events
are those of this loop. -/
def validateItemsSync (validateItem : JValue → String → VState → VOut)
    (maxEntriesToValidate : Option Nat) (needsDeepSerDes : Bool)
    (shouldStopOnFirstError : Bool) (path : String) :
    List JValue → Nat → Option VError → VState → VOut
  | [], _, errorResult, st => { result := errorResult, state := st, events := [] }
  | arrayItem :: rest, index, errorResult, st =>
    if !needsDeepSerDes && maxEReached maxEntriesToValidate index then
      { result := errorResult, state := st, events := [] }
    else
      let out := validateItem arrayItem (appendPathIndex path index) st
      let headEvents := VEvent.checkedItem (appendPathIndex path index) :: out.events
      if errorResult = Option.none ∧ out.result.isSome then
        if shouldStopOnFirstError then
          { result := out.result, state := out.state, events := headEvents }
        else
          let tail := validateItemsSync validateItem maxEntriesToValidate
            needsDeepSerDes shouldStopOnFirstError path rest (index + 1)
            out.result out.state
          { result := tail.result, state := tail.state,
            events := headEvents ++ tail.events }
      else
        let tail := validateItemsSync validateItem maxEntriesToValidate
          needsDeepSerDes shouldStopOnFirstError path rest (index + 1)
          errorResult out.state
        { result := tail.result, state := tail.state,
          events := headEvents ++ tail.events }

/-- The body of `validateArray` (`src/schema/data-types/array.ts`):
type check, the mode-`none` fast path, the two bounds checks, and then the
item loop; `validateItem` is the item schema's synchronous validator when an
`items` schema is present. -/
def validateArrayCore (validateItem : Option (JValue → String → VState → VOut))
    (minLength : Nat) (maxLength maxEntriesToValidate : Option Nat)
    (needsDeepSerDes : Bool) (value : JValue) (mode : ValidationMode)
    (path : String) (st : VState) : VOut :=
  let shouldStopOnFirstError : Bool :=
    (mode = ValidationMode.hard) || !needsDeepSerDes
  match value with
  | JValue.varr elems =>
    if !needsDeepSerDes && (mode = ValidationMode.none) then
      { result := Option.none, state := st, events := [] }
    else
      let tooShortErr : Option VError :=
        if elems.length < minLength then
          some (VError.tooShort minLength elems.length path)
        else Option.none
      if tooShortErr.isSome && shouldStopOnFirstError then
        { result := tooShortErr, state := st, events := [] }
      else
        let tooLongErr : Option VError :=
          if tooShortErr = Option.none then
            match maxLength with
            | some maxL =>
                if elems.length > maxL then
                  some (VError.tooLong maxL elems.length path)
                else Option.none
            | Option.none => Option.none
          else Option.none
        if tooLongErr.isSome && shouldStopOnFirstError then
          { result := tooLongErr, state := st, events := [] }
        else
          let errorResult : Option VError :=
            match tooShortErr with
            | some e => some e
            | Option.none => tooLongErr
          match validateItem with
          | Option.none => { result := errorResult, state := st, events := [] }
          | some f =>
              validateItemsSync f maxEntriesToValidate needsDeepSerDes
                shouldStopOnFirstError path elems 0 errorResult st
  | other =>
      { result := some (VError.typeMismatch "array" (getMeaningfulTypeof other) path),
        state := st, events := [] }

/-- The shared tail of the upgraded combinator after the new schema has been
validated: accept immediately when the new schema accepted; otherwise run the
old schema, and on its success log the deprecation warning once per
`uniqueName` (and only for values other than `undefined`); on its failure
report the old schema's error. -/
def upgradedAfterNew (uniqueName : String) (deadline : Option String)
    (value : JValue) (newOut : VOut) (validateOld : VState → VOut) : VOut :=
  if newOut.result = Option.none then
    { result := Option.none, state := newOut.state, events := newOut.events }
  else
    let oldOut := validateOld newOut.state
    if oldOut.result = Option.none then
      if !isUndefined value && !(oldOut.state.warned.contains uniqueName) then
        { result := Option.none,
          state := { warned := oldOut.state.warned ++ [uniqueName],
                     oracle := oldOut.state.oracle },
          events := newOut.events ++ oldOut.events ++
            [VEvent.warnLogged uniqueName (deprecationMessage uniqueName deadline)] }
      else
        { result := Option.none, state := oldOut.state,
          events := newOut.events ++ oldOut.events }
    else
      { result := oldOut.result, state := oldOut.state,
        events := newOut.events ++ oldOut.events }

/-- The outcome of one `processChunk` call: `reachedMax` models the `false`
return (the `maxEntriesToValidate` cutoff was reached), `stoppedOnError`
models returning the recorded `errorResult` (stop-on-first-error), and
`finished` models the `undefined` return. -/
inductive ChunkSignal where
  | reachedMax
  | stoppedOnError
  | finished
deriving DecidableEq

/-- Output of a chunk (or chunk-item loop): the signal, the running
`errorResult`, the state after the chunk, and the chunk's events. -/
structure ChunkOut where
  signal : ChunkSignal
  errorResult : Option VError
  state : VState
  events : List VEvent
deriving DecidableEq

/-- The item schema's capabilities as the asynchronous array validator uses
them: its synchronous and asynchronous validators and its
`estimatedValidationTimeComplexity`. -/
structure ItemValidators where
  runSync : JValue → String → VState → VOut
  runAsync : JValue → String → VState → VOut
  cost : Nat

/-- One call of the caller's `shouldYield` predicate: the next oracle answer
(`false` once the oracle is exhausted) and the remaining oracle. -/
def popOracle (st : VState) : Bool × VState :=
  match st.oracle with
  | [] => (false, { st with oracle := [] })
  | b :: bs => (b, { st with oracle := bs })

/-- The per-element validator choice of the asynchronous paths
(`items.estimatedValidationTimeComplexity > asyncTimeComplexityThreshold ?
internalValidateAsync : internalValidate`). -/
def dispatchItem (items : ItemValidators) (thr : Nat) :
    JValue → String → VState → VOut :=
  if items.cost > thr then items.runAsync else items.runSync

/-- The event marking which of the two child validators was invoked. -/
def dispatchEvent (items : ItemValidators) (thr : Nat) (p : String) : VEvent :=
  if items.cost > thr then VEvent.checkedItemAsync p else VEvent.checkedItem p

/-- The element loop inside `processChunk`: runs `count` successive indices
starting at `index`, reading each element from `elems`, returning
`reachedMax` at the `maxEntriesToValidate` cutoff and `stoppedOnError` at the
first item error when `shouldStopOnFirstError` holds; each element is
validated with the item schema's asynchronous validator exactly when
`items.cost > thr`, and with its synchronous validator otherwise. -/
def processChunkItems (items : ItemValidators) (thr : Nat)
    (maxEntriesToValidate : Option Nat) (needsDeepSerDes : Bool)
    (shouldStopOnFirstError : Bool) (path : String) (elems : List JValue) :
    Nat → Nat → Option VError → VState → ChunkOut
  | _, 0, errorResult, st =>
      { signal := ChunkSignal.finished, errorResult := errorResult,
        state := st, events := [] }
  | index, countRemaining + 1, errorResult, st =>
    let arrayItem := elems.getD index JValue.vundefined
    if !needsDeepSerDes && maxEReached maxEntriesToValidate index then
      { signal := ChunkSignal.reachedMax, errorResult := errorResult,
        state := st, events := [] }
    else
      let out := dispatchItem items thr arrayItem (appendPathIndex path index) st
      let headEvents := dispatchEvent items thr (appendPathIndex path index) :: out.events
      if errorResult = Option.none ∧ out.result.isSome then
        if shouldStopOnFirstError then
          { signal := ChunkSignal.stoppedOnError, errorResult := out.result,
            state := out.state, events := headEvents }
        else
          let tail := processChunkItems items thr maxEntriesToValidate
            needsDeepSerDes shouldStopOnFirstError path elems (index + 1)
            countRemaining out.result out.state
          { signal := tail.signal, errorResult := tail.errorResult,
            state := tail.state, events := headEvents ++ tail.events }
      else
        let tail := processChunkItems items thr maxEntriesToValidate
          needsDeepSerDes shouldStopOnFirstError path elems (index + 1)
          countRemaining errorResult out.state
        { signal := tail.signal, errorResult := tail.errorResult,
          state := tail.state, events := headEvents ++ tail.events }

/-- One `processChunk` call: consult the caller's `shouldYield` predicate,
suspend via the caller's `yield` primitive when it answers true, then run the
chunk's element loop (`index < numValues && index < chunkStartIndex +
chunkSize`). -/
def processChunk (items : ItemValidators) (thr : Nat)
    (maxEntriesToValidate : Option Nat) (needsDeepSerDes : Bool)
    (shouldStopOnFirstError : Bool) (path : String) (elems : List JValue)
    (chunkSize numValues chunkStartIndex : Nat) (errorResult : Option VError)
    (st : VState) : ChunkOut :=
  let popped := popOracle st
  let yieldEvents :=
    VEvent.askedYield popped.1 :: (if popped.1 then [VEvent.yielded] else [])
  let count := min (chunkStartIndex + chunkSize) numValues - chunkStartIndex
  let inner := processChunkItems items thr maxEntriesToValidate needsDeepSerDes
    shouldStopOnFirstError path elems chunkStartIndex count errorResult popped.2
  { signal := inner.signal, errorResult := inner.errorResult,
    state := inner.state, events := yieldEvents ++ inner.events }

/-- The chunk loop of `asyncValidateArray`
(`for (chunkStartIndex = 0; chunkStartIndex < numValues; chunkStartIndex +=
chunkSize)`), modelled with a fuel counter (`fuel = numValues` at the call
site suffices because `chunkSize ≥ 1`): a `reachedMax` chunk result breaks
the loop, while any other chunk result — including `stoppedOnError`, whose
handling in the source is the effect-free statement `chunkRes;` — lets the
loop continue with the next chunk. -/
def processAllChunks (items : ItemValidators) (thr : Nat)
    (maxEntriesToValidate : Option Nat) (needsDeepSerDes : Bool)
    (shouldStopOnFirstError : Bool) (path : String) (elems : List JValue)
    (chunkSize numValues : Nat) :
    Nat → Nat → Option VError → VState → VOut
  | 0, _, errorResult, st =>
      { result := errorResult, state := st, events := [] }
  | fuel + 1, chunkStartIndex, errorResult, st =>
    if chunkStartIndex < numValues then
      let c := processChunk items thr maxEntriesToValidate needsDeepSerDes
        shouldStopOnFirstError path elems chunkSize numValues chunkStartIndex
        errorResult st
      match c.signal with
      | ChunkSignal.reachedMax =>
          { result := c.errorResult, state := c.state, events := c.events }
      | _ =>
          let rest := processAllChunks items thr maxEntriesToValidate
            needsDeepSerDes shouldStopOnFirstError path elems chunkSize
            numValues fuel (chunkStartIndex + chunkSize) c.errorResult c.state
          { result := rest.result, state := rest.state,
            events := c.events ++ rest.events }
    else { result := errorResult, state := st, events := [] }

/-- The body of `asyncValidateArray` (`src/schema/data-types/array.ts`):
type check, the mode-`none` fast path, the bounds checks (these are
additionally gated on `validatorOptions.validation !== 'none'`), the
`items === undefined` early return, and then the chunked element loop with
`chunkSize = max(1, floor(asyncTimeComplexityThreshold / items cost))`. -/
def asyncValidateArrayCore (items : Option ItemValidators) (minLength : Nat)
    (maxLength maxEntriesToValidate : Option Nat) (needsDeepSerDes : Bool)
    (thr : Nat) (value : JValue) (mode : ValidationMode) (path : String)
    (st : VState) : VOut :=
  let shouldStopOnFirstError : Bool :=
    (mode = ValidationMode.hard) || !needsDeepSerDes
  match value with
  | JValue.varr elems =>
    if !needsDeepSerDes && (mode = ValidationMode.none) then
      { result := Option.none, state := st, events := [] }
    else
      let tooShortErr : Option VError :=
        if mode ≠ ValidationMode.none ∧ elems.length < minLength then
          some (VError.tooShort minLength elems.length path)
        else Option.none
      if tooShortErr.isSome && shouldStopOnFirstError then
        { result := tooShortErr, state := st, events := [] }
      else
        let tooLongErr : Option VError :=
          if mode ≠ ValidationMode.none ∧ tooShortErr = Option.none then
            match maxLength with
            | some maxL =>
                if elems.length > maxL then
                  some (VError.tooLong maxL elems.length path)
                else Option.none
            | Option.none => Option.none
          else Option.none
        if tooLongErr.isSome && shouldStopOnFirstError then
          { result := tooLongErr, state := st, events := [] }
        else
          let errorResult : Option VError :=
            match tooShortErr with
            | some e => some e
            | Option.none => tooLongErr
          match items with
          | Option.none => { result := errorResult, state := st, events := [] }
          | some itemFns =>
              let chunkSize := max 1 (thr / itemFns.cost)
              let numValues := elems.length
              processAllChunks itemFns thr maxEntriesToValidate needsDeepSerDes
                shouldStopOnFirstError path elems chunkSize numValues numValues
                0 errorResult st
  | other =>
      { result := some (VError.typeMismatch "array" (getMeaningfulTypeof other) path),
        state := st, events := [] }

/-- The synchronous validator (`internalValidate` of each schema kind). -/
def internalValidate : Schema → JValue → ValidationMode → String → VState → VOut
  | .leaf check _ _, value, mode, path, st => validateLeaf check value mode path st
  | .array Option.none minLength maxLength maxEntriesToValidate, value, mode, path, st =>
      validateArrayCore Option.none minLength maxLength maxEntriesToValidate
        false value mode path st
  | .array (some itemSchema) minLength maxLength maxEntriesToValidate, value, mode, path, st =>
      validateArrayCore
        (some (fun item p s => internalValidate itemSchema item mode p s))
        minLength maxLength maxEntriesToValidate itemSchema.usesCustomSerDes
        value mode path st
  | .upgraded uniqueName oldSchema newSchema deadline, value, mode, path, st =>
      upgradedAfterNew uniqueName deadline value
        (internalValidate newSchema value mode path st)
        (fun st1 => internalValidate oldSchema value mode path st1)

/-- The asynchronous validator (`internalValidateAsync` of each schema kind),
with the configured `asyncTimeComplexityThreshold` passed explicitly (the
source reads it from the external configuration store).  For an array, the
item schema is validated asynchronously exactly when its cost exceeds the
threshold; the upgraded combinator likewise chooses, independently per child,
the synchronous or asynchronous child validator by comparing that child's
cost with the threshold. -/
def internalValidateAsync (thr : Nat) :
    Schema → JValue → ValidationMode → String → VState → VOut
  | .leaf check _ _, value, mode, path, st => validateLeaf check value mode path st
  | .array Option.none minLength maxLength maxEntriesToValidate, value, mode, path, st =>
      asyncValidateArrayCore Option.none minLength maxLength
        maxEntriesToValidate false thr value mode path st
  | .array (some itemSchema) minLength maxLength maxEntriesToValidate, value, mode, path, st =>
      asyncValidateArrayCore
        (some
          { runSync := fun item p s => internalValidate itemSchema item mode p s,
            runAsync := fun item p s => internalValidateAsync thr itemSchema item mode p s,
            cost := itemSchema.estimatedValidationTimeComplexity })
        minLength maxLength maxEntriesToValidate itemSchema.usesCustomSerDes
        thr value mode path st
  | .upgraded uniqueName oldSchema newSchema deadline, value, mode, path, st =>
      upgradedAfterNew uniqueName deadline value
        (if newSchema.estimatedValidationTimeComplexity > thr then
          internalValidateAsync thr newSchema value mode path st
        else internalValidate newSchema value mode path st)
        (fun st1 =>
          if oldSchema.estimatedValidationTimeComplexity > thr then
            internalValidateAsync thr oldSchema value mode path st1
          else internalValidate oldSchema value mode path st1)

/-- Induction principle for `Schema` (hand-rolled because `items` nests
`Schema` inside `Option`). -/
def Schema.inductionOn {motive : Schema → Prop}
    (leaf : ∀ check cost serDes, motive (Schema.leaf check cost serDes))
    (arrayNone : ∀ minLength maxLength maxEntriesToValidate,
      motive (Schema.array Option.none minLength maxLength maxEntriesToValidate))
    (arraySome : ∀ itemSchema minLength maxLength maxEntriesToValidate,
      motive itemSchema →
      motive (Schema.array (some itemSchema) minLength maxLength maxEntriesToValidate))
    (upgraded : ∀ uniqueName oldSchema newSchema deadline,
      motive oldSchema → motive newSchema →
      motive (Schema.upgraded uniqueName oldSchema newSchema deadline)) :
    ∀ s, motive s
  | .leaf check cost serDes => leaf check cost serDes
  | .array Option.none minL maxL maxE => arrayNone minL maxL maxE
  | .array (some itemSchema) minL maxL maxE =>
      arraySome itemSchema minL maxL maxE
        (Schema.inductionOn leaf arrayNone arraySome upgraded itemSchema)
  | .upgraded uniqueName oldSchema newSchema deadline =>
      upgraded uniqueName oldSchema newSchema deadline
        (Schema.inductionOn leaf arrayNone arraySome upgraded oldSchema)
        (Schema.inductionOn leaf arrayNone arraySome upgraded newSchema)

/-- First-error choice: the source's `errorResult` slot keeps the error
detected first (`errorResult ?? noError`, with later detections only
populating the slot if still empty). -/
def orE : Option VError → Option VError → Option VError
  | some e, _ => some e
  | Option.none, r => r

/-- The positional cutoff condition of the item loops
(`!needsDeepSerDes && maxEntriesToValidate !== undefined &&
index >= maxEntriesToValidate`). -/
def stopAt (needsDeepSerDes : Bool) (maxEntriesToValidate : Option Nat)
    (i : Nat) : Bool :=
  !needsDeepSerDes && maxEReached maxEntriesToValidate i

/-- Reference first-error walk: starting at index `i`, over `count` indices,
stop (accepting) at the first index where `stop` holds, otherwise return the
first error `g` reports.  Both item loops compute this value. -/
def firstErrorFrom (g : Nat → Option VError) (stop : Nat → Bool) :
    Nat → Nat → Option VError
  | _, 0 => Option.none
  | i, count + 1 =>
    if stop i then Option.none
    else
      match g i with
      | some e => some e
      | Option.none => firstErrorFrom g stop (i + 1) count

/-- The bounds-check outcome (CheckBounds): `minLength` defaulting to 0,
`maxLength` defaulting to unbounded, the "too short" violation checked
first. -/
def boundsErrorOf (minL : Nat) (maxL : Option Nat) (len : Nat)
    (path : String) : Option VError :=
  if len < minL then some (VError.tooShort minL len path)
  else
    match maxL with
    | some m => if len > m then some (VError.tooLong m len path) else Option.none
    | Option.none => Option.none

/-- The item validator's result on the element at absolute index `i`,
evaluated at a canonical state (results are state-independent). -/
def itemResultAt (f : JValue → String → VState → VOut) (elems : List JValue)
    (path : String) (stC : VState) (i : Nat) : Option VError :=
  (f (elems.getD i JValue.vundefined) (appendPathIndex path i) stC).result

/-- The item-walk part of the result formula: no items schema means no item
errors. -/
def itemsFirstError (f : Option (JValue → String → VState → VOut))
    (elems : List JValue) (path : String) (stC : VState)
    (stop : Nat → Bool) : Option VError :=
  match f with
  | some fn => firstErrorFrom (itemResultAt fn elems path stC) stop 0 elems.length
  | Option.none => Option.none

/-- The item-walk part of the asynchronous result formula. -/
def asyncItemsFirstError (items : Option ItemValidators) (thr : Nat)
    (elems : List JValue) (path : String) (stC : VState)
    (stop : Nat → Bool) : Option VError :=
  match items with
  | some itemFns =>
      firstErrorFrom (itemResultAt (dispatchItem itemFns thr) elems path stC)
        stop 0 elems.length
  | Option.none => Option.none

/-- Stated from the spec (section 4.2, cost model): an array's cost is the
item cost (1 when there is no items schema) times a representative length:
`maxEntriesToValidate` when the array skips serialization work, else
`maxLength`, with the fixed default average length 100 when the selected
bound is absent. -/
def specArrayCost (itemCost : Nat) (skipsSerializationWork : Bool)
    (maxLength maxEntriesToValidate : Option Nat) : Nat :=
  itemCost *
    ((if skipsSerializationWork then maxEntriesToValidate else maxLength).getD 100)

/-- The `uniqueName`s of all upgraded combinators inside a schema. -/
def namesUsed : Schema → List String
  | .leaf _ _ _ => []
  | .array items _ _ _ =>
      match items with
      | some itemSchema => namesUsed itemSchema
      | Option.none => []
  | .upgraded uniqueName oldSchema newSchema _ =>
      uniqueName :: (namesUsed oldSchema ++ namesUsed newSchema)

/-- How many deprecation warnings for `uniqueName` a trace contains. -/
def countWarn (uniqueName : String) (events : List VEvent) : Nat :=
  (events.filter (fun e =>
    match e with
    | VEvent.warnLogged n _ => n == uniqueName
    | _ => false)).length

/-- Whether the synchronous validator accepts a value (evaluated at the empty
state; results are state-independent). -/
def syncAccepts (s : Schema) (v : JValue) (mode : ValidationMode)
    (path : String) : Bool :=
  (internalValidate s v mode path { warned := [], oracle := [] }).result.isNone

/-- Whether the asynchronous validator accepts a value. -/
def asyncAccepts (thr : Nat) (s : Schema) (v : JValue) (mode : ValidationMode)
    (path : String) : Bool :=
  (internalValidateAsync thr s v mode path { warned := [], oracle := [] }).result.isNone

/-- Whether the validator the asynchronous upgraded combinator dispatches a
child to (by comparing the child's cost with the threshold) accepts a
value. -/
def dispatchAccepts (thr : Nat) (s : Schema) (v : JValue)
    (mode : ValidationMode) (path : String) : Bool :=
  if s.estimatedValidationTimeComplexity > thr then asyncAccepts thr s v mode path
  else syncAccepts s v mode path

/-- Whether one validation call of an upgraded combinator (asynchronous when
`useAsync`) is a deprecation-warning trigger: the new schema rejects the
value, the old schema accepts it, and the value is not `undefined`. -/
def triggersUpgradeWarning (thr : Nat) (oldSchema newSchema : Schema)
    (mode : ValidationMode) (path : String) (useAsync : Bool)
    (v : JValue) : Bool :=
  (if useAsync then
    !(dispatchAccepts thr newSchema v mode path) &&
      dispatchAccepts thr oldSchema v mode path
   else
    !(syncAccepts newSchema v mode path) && syncAccepts oldSchema v mode path) &&
    !isUndefined v

/-- A sequence of validations of one schema within one process: each entry
chooses the synchronous or the asynchronous validator and supplies a value;
the process state threads through, and all events are concatenated. -/
def runSeq (thr : Nat) (s : Schema) (mode : ValidationMode) (path : String) :
    List (Bool × JValue) → VState → VState × List VEvent
  | [], st => (st, [])
  | (useAsync, v) :: rest, st =>
    let out :=
      if useAsync then internalValidateAsync thr s v mode path st
      else internalValidate s v mode path st
    let tail := runSeq thr s mode path rest out.state
    (tail.1, out.events ++ tail.2)

/-- Stated from the spec (section 4.3, asynchronous path): within a chunk,
each element is validated with the item schema's asynchronous validator
exactly when the item cost exceeds the threshold, and with its synchronous
validator otherwise, in index order. -/
def specChunkElems (runSync runAsync : JValue → String → VState → VOut)
    (itemCost thr : Nat) (path : String) (elems : List JValue) :
    Nat → Nat → VState → VState × List VEvent
  | _, 0, st => (st, [])
  | index, count + 1, st =>
    let out :=
      if itemCost > thr then
        runAsync (elems.getD index JValue.vundefined) (appendPathIndex path index) st
      else
        runSync (elems.getD index JValue.vundefined) (appendPathIndex path index) st
    let ev :=
      if itemCost > thr then VEvent.checkedItemAsync (appendPathIndex path index)
      else VEvent.checkedItem (appendPathIndex path index)
    let tail := specChunkElems runSync runAsync itemCost thr path elems
      (index + 1) count out.state
    (tail.1, ev :: out.events ++ tail.2)

/-- Stated from the spec (section 4.3, asynchronous path): elements are
processed in chunks of size `max(1, floor(threshold / itemCost))`; before
each chunk the caller's shouldYield predicate is consulted and, when it
answers true, the walk suspends via the caller's yield primitive. -/
def specChunkedWalk (runSync runAsync : JValue → String → VState → VOut)
    (itemCost thr : Nat) (path : String) (elems : List JValue) :
    Nat → Nat → VState → VState × List VEvent
  | 0, _, st => (st, [])
  | fuel + 1, chunkStartIndex, st =>
    if chunkStartIndex < elems.length then
      let chunkSize := max 1 (thr / itemCost)
      let popped := popOracle st
      let yieldEvents :=
        VEvent.askedYield popped.1 :: (if popped.1 then [VEvent.yielded] else [])
      let chunk := specChunkElems runSync runAsync itemCost thr path elems
        chunkStartIndex (min (chunkStartIndex + chunkSize) elems.length - chunkStartIndex)
        popped.2
      let rest := specChunkedWalk runSync runAsync itemCost thr path elems fuel
        (chunkStartIndex + chunkSize) chunk.1
      (rest.1, yieldEvents ++ chunk.2 ++ rest.2)
    else (st, [])

/-- Fixture: a leaf schema accepting exactly strings (after the string schema
of the test suite), with unit cost and no custom serialization. -/
def stringLeaf : Schema :=
  Schema.leaf (fun v => match v with | .vstr _ => true | _ => false) 1 false

/-- Fixture: a leaf schema accepting exactly numbers. -/
def numberLeaf : Schema :=
  Schema.leaf (fun v => match v with | .vnum _ => true | _ => false) 1 false

/-- Fixture: a string-accepting leaf schema that requires custom
serialization. -/
def serDesLeaf : Schema :=
  Schema.leaf (fun v => match v with | .vstr _ => true | _ => false) 1 true

/-- Fixture: the state at process start (empty warned set, caller's
shouldYield always answering false). -/
def emptyState : VState := { warned := [], oracle := [] }

theorem orE_some (e : VError) (r : Option VError) : orE (some e) r = some e := rfl

theorem orE_none (r : Option VError) : orE Option.none r = r := rfl

theorem orE_assoc (a b c : Option VError) :
    orE (orE a b) c = orE a (orE b c) := by
  cases a <;> cases b <;> rfl

theorem firstErrorFrom_succ (g : Nat → Option VError) (stop : Nat → Bool)
    (i count : Nat) :
    firstErrorFrom g stop i (count + 1) =
      if stop i then Option.none
      else
        match g i with
        | some e => some e
        | Option.none => firstErrorFrom g stop (i + 1) count := rfl

theorem firstErrorFrom_congr {g g' : Nat → Option VError} {stop : Nat → Bool} :
    ∀ count i, (∀ j, i ≤ j → j < i + count → g j = g' j) →
    firstErrorFrom g stop i count = firstErrorFrom g' stop i count := by
  intro count
  induction count with
  | zero => intro i _; rfl
  | succ c ih =>
    intro i h
    rw [firstErrorFrom_succ, firstErrorFrom_succ]
    rw [h i (Nat.le_refl i) (by omega)]
    cases hs : stop i with
    | true => simp
    | false =>
      simp only [Bool.false_eq_true, if_false]
      cases hg : g' i with
      | some e => rfl
      | none => exact ih (i + 1) (fun j h1 h2 => h j (by omega) (by omega))

theorem firstErrorFrom_stop_truncate {g : Nat → Option VError}
    {stop : Nat → Bool} :
    ∀ count count' i j, i ≤ j → j < i + count → j < i + count' →
    stop j = true →
    firstErrorFrom g stop i count = firstErrorFrom g stop i count' := by
  intro count
  induction count with
  | zero => intro count' i j h1 h2; omega
  | succ c ih =>
    intro count' i j h1 h2 h3 hstop
    cases count' with
    | zero => omega
    | succ c' =>
      rw [firstErrorFrom_succ, firstErrorFrom_succ]
      cases hs : stop i with
      | true => simp
      | false =>
        simp only [Bool.false_eq_true, if_false]
        cases hg : g i with
        | some e => rfl
        | none =>
          have hij : i ≠ j := fun heq => by
            rw [heq, hstop] at hs; cases hs
          exact ih c' (i + 1) j (by omega) (by omega) (by omega) hstop

theorem firstErrorFrom_some_mono {g : Nat → Option VError} {stop : Nat → Bool}
    {e : VError} :
    ∀ count count' i, firstErrorFrom g stop i count = some e →
    count ≤ count' → firstErrorFrom g stop i count' = some e := by
  intro count
  induction count with
  | zero => intro count' i h; cases h
  | succ c ih =>
    intro count' i h hle
    cases count' with
    | zero => omega
    | succ c' =>
      rw [firstErrorFrom_succ] at h ⊢
      cases hs : stop i with
      | true => rw [hs] at h; simp at h
      | false =>
        rw [hs] at h
        simp only [Bool.false_eq_true, if_false] at h ⊢
        cases hg : g i with
        | some e1 => rw [hg] at h; exact h
        | none =>
          rw [hg] at h
          exact ih c' (i + 1) h (by omega)

theorem firstErrorFrom_append {g : Nat → Option VError} {stop : Nat → Bool} :
    ∀ a b i, (∀ j, i ≤ j → j < i + a → stop j = false) →
    firstErrorFrom g stop i (a + b) =
      orE (firstErrorFrom g stop i a) (firstErrorFrom g stop (i + a) b) := by
  intro a
  induction a with
  | zero => intro b i _; simp [firstErrorFrom, orE_none]
  | succ c ih =>
    intro b i h
    have hsi : stop i = false := h i (Nat.le_refl i) (by omega)
    have hstep : c + 1 + b = (c + b) + 1 := by omega
    rw [hstep, firstErrorFrom_succ, firstErrorFrom_succ, hsi]
    simp only [Bool.false_eq_true, if_false]
    cases hg : g i with
    | some e => rfl
    | none =>
      rw [ih b (i + 1) (fun j h1 h2 => h j (by omega) (by omega))]
      have harith : i + 1 + c = i + (c + 1) := by omega
      rw [harith]

theorem firstErrorFrom_eq_none_iff {g : Nat → Option VError}
    {stop : Nat → Bool} :
    ∀ count i, (∀ j, i ≤ j → j < i + count → stop j = false) →
    (firstErrorFrom g stop i count = Option.none ↔
      ∀ j, i ≤ j → j < i + count → g j = Option.none) := by
  intro count
  induction count with
  | zero =>
    intro i _
    constructor
    · intro _ j h1 h2; omega
    · intro _; rfl
  | succ c ih =>
    intro i h
    have hsi : stop i = false := h i (Nat.le_refl i) (by omega)
    rw [firstErrorFrom_succ, hsi]
    simp only [Bool.false_eq_true, if_false]
    cases hg : g i with
    | some e =>
      constructor
      · intro hfalse; cases hfalse
      · intro hall
        have := hall i (Nat.le_refl i) (by omega)
        rw [hg] at this; cases this
    | none =>
      rw [ih (i + 1) (fun j h1 h2 => h j (by omega) (by omega))]
      constructor
      · intro hall j h1 h2
        rcases Nat.eq_or_lt_of_le h1 with h1 | h1
        · rw [← h1]; exact hg
        · exact hall j h1 (by omega)
      · intro hall j h1 h2
        exact hall j (by omega) (by omega)

theorem firstErrorFrom_none_mono {g g' : Nat → Option VError}
    {stop : Nat → Bool} :
    ∀ count i,
    (∀ j, i ≤ j → j < i + count → g j = Option.none → g' j = Option.none) →
    firstErrorFrom g stop i count = Option.none →
    firstErrorFrom g' stop i count = Option.none := by
  intro count
  induction count with
  | zero => intro i _ _; rfl
  | succ c ih =>
    intro i hmono h
    rw [firstErrorFrom_succ] at h ⊢
    cases hs : stop i with
    | true => simp
    | false =>
      rw [hs] at h
      simp only [Bool.false_eq_true, if_false] at h ⊢
      cases hg : g i with
      | some e => rw [hg] at h; cases h
      | none =>
        rw [hg] at h
        rw [hmono i (Nat.le_refl i) (by omega) hg]
        exact ih (i + 1) (fun j h1 h2 => hmono j (by omega) (by omega)) h

/-! Validation results do not depend on the threaded state: the warned-names
set only gates logging and the yield oracle only gates suspension events. -/

theorem validateItemsSync_result_stable
    {f : JValue → String → VState → VOut}
    (hf : ∀ v p s1 s2, (f v p s1).result = (f v p s2).result)
    (maxE : Option Nat) (ndsd stop : Bool) (path : String) :
    ∀ elems idx err st1 st2,
    (validateItemsSync f maxE ndsd stop path elems idx err st1).result =
    (validateItemsSync f maxE ndsd stop path elems idx err st2).result := by
  intro elems
  induction elems with
  | nil => intro idx err st1 st2; rfl
  | cons a rest ih =>
    intro idx err st1 st2
    simp only [validateItemsSync]
    by_cases hb : (!ndsd && maxEReached maxE idx) = true
    · rw [if_pos hb, if_pos hb]
    · rw [if_neg hb, if_neg hb]
      have hr := hf a (appendPathIndex path idx) st1 st2
      rw [hr]
      by_cases hc : err = Option.none ∧ (f a (appendPathIndex path idx) st2).result.isSome = true
      · rw [if_pos hc, if_pos hc]
        by_cases hstop : stop = true
        · rw [if_pos hstop, if_pos hstop]
        · rw [if_neg hstop, if_neg hstop]
          exact ih (idx + 1) (f a (appendPathIndex path idx) st2).result _ _
      · rw [if_neg hc, if_neg hc]
        exact ih (idx + 1) err _ _

theorem firstErrorFrom_eq_none_of {g : Nat → Option VError}
    {stop : Nat → Bool} :
    ∀ count i,
    (∀ j, i ≤ j → j < i + count → stop j = false → g j = Option.none) →
    firstErrorFrom g stop i count = Option.none := by
  intro count
  induction count with
  | zero => intro i _; rfl
  | succ c ih =>
    intro i h
    rw [firstErrorFrom_succ]
    cases hs : stop i with
    | true => simp
    | false =>
      simp only [Bool.false_eq_true, if_false]
      rw [h i (Nat.le_refl i) (by omega) hs]
      exact ih (i + 1) (fun j h1 h2 => h j (by omega) (by omega))

theorem orE_none_right (a : Option VError) : orE a Option.none = a := by
  cases a <;> rfl

theorem validateItemsSync_result_char
    {f : JValue → String → VState → VOut}
    (hf : ∀ v p s1 s2, (f v p s1).result = (f v p s2).result)
    (maxE : Option Nat) (ndsd stop : Bool) (path : String) (stC : VState) :
    ∀ elems idx err st,
    (validateItemsSync f maxE ndsd stop path elems idx err st).result =
    orE err (firstErrorFrom
      (fun i => (f (elems.getD (i - idx) JValue.vundefined)
        (appendPathIndex path i) stC).result)
      (stopAt ndsd maxE) idx elems.length) := by
  intro elems
  induction elems with
  | nil =>
    intro idx err st
    simp only [validateItemsSync, List.length_nil, firstErrorFrom]
    rw [orE_none_right]
  | cons a rest ih =>
    intro idx err st
    simp only [validateItemsSync, List.length_cons]
    rw [firstErrorFrom_succ]
    simp only [stopAt, Nat.sub_self, List.getD_cons_zero]
    have hcongr :
        firstErrorFrom
          (fun i => (f ((a :: rest).getD (i - idx) JValue.vundefined)
            (appendPathIndex path i) stC).result)
          (stopAt ndsd maxE) (idx + 1) rest.length =
        firstErrorFrom
          (fun i => (f (rest.getD (i - (idx + 1)) JValue.vundefined)
            (appendPathIndex path i) stC).result)
          (stopAt ndsd maxE) (idx + 1) rest.length := by
      apply firstErrorFrom_congr
      intro j h1 h2
      have hsub : j - idx = (j - (idx + 1)) + 1 := by omega
      rw [hsub, List.getD_cons_succ]
    cases hb : (!ndsd && maxEReached maxE idx) with
    | true => simp [hb, orE_none_right]
    | false =>
      simp only [hb, Bool.false_eq_true, if_false]
      cases herr : err with
      | some e =>
        simp only [reduceCtorEq, false_and, if_false]
        rw [ih (idx + 1) (some e) _, orE_some, orE_some]
      | none =>
        cases hout : (f a (appendPathIndex path idx) st).result with
        | some e =>
          have hg : (f a (appendPathIndex path idx) stC).result = some e :=
            (hf a (appendPathIndex path idx) stC st).trans hout
          simp only [hout, hg, Option.isSome_some, and_true, true_and, and_self,
            if_true, ite_true, orE_none]
          cases hstop : stop with
          | true => simp [hout]
          | false =>
            simp only [Bool.false_eq_true, if_false]
            rw [hstop] at ih
            rw [ih (idx + 1) (some e) _, orE_some]
        | none =>
          have hg : (f a (appendPathIndex path idx) stC).result = Option.none :=
            (hf a (appendPathIndex path idx) stC st).trans hout
          simp only [hout, hg, Option.isSome_none, and_false, Bool.false_eq_true,
            if_false, orE_none]
          rw [ih (idx + 1) Option.none _, orE_none, hcongr]

/-- Result of the synchronous array validator body on an actual array:
the mode-`none` fast path, else the first bounds violation, else the first
item error up to the positional cutoff. -/
theorem validateArrayCore_result_char
    {f : Option (JValue → String → VState → VOut)}
    (hf : ∀ fn, f = some fn →
      ∀ v p s1 s2, (fn v p s1).result = (fn v p s2).result)
    (minL : Nat) (maxL maxE : Option Nat) (ndsd : Bool)
    (elems : List JValue) (mode : ValidationMode) (path : String)
    (st stC : VState) :
    (validateArrayCore f minL maxL maxE ndsd (JValue.varr elems) mode path st).result =
    if (!ndsd && (mode = ValidationMode.none : Bool)) = true then Option.none
    else
      orE (boundsErrorOf minL maxL elems.length path)
        (itemsFirstError f elems path stC (stopAt ndsd maxE)) := by
  simp only [validateArrayCore]
  cases h0 : (!ndsd && decide (mode = ValidationMode.none)) with
  | true => simp [h0]
  | false =>
    simp only [h0, Bool.false_eq_true, if_false]
    by_cases hlt : elems.length < minL
    · simp only [if_pos hlt, Option.isSome_some, Bool.true_and]
      cases hstop : (decide (mode = ValidationMode.hard) || !ndsd) with
      | true => simp [boundsErrorOf, hlt, orE_some]
      | false =>
        simp only [Bool.false_eq_true, if_false, reduceCtorEq, ite_false,
          Option.isSome_none, Bool.false_and]
        split
        · simp [boundsErrorOf, hlt, orE_some, itemsFirstError]
        · rename_i fn
          rw [validateItemsSync_result_char (hf fn rfl) maxE ndsd _ path stC
            elems 0 (some (VError.tooShort minL elems.length path)) st]
          simp [boundsErrorOf, hlt, orE_some, itemsFirstError]
    · simp only [if_neg hlt, Option.isSome_none, Bool.false_and,
        Bool.false_eq_true, if_false, reduceCtorEq, eq_self_iff_true, if_true,
        ite_true]
      cases hml : maxL with
      | some m =>
        by_cases hgt : elems.length > m
        · simp only [if_pos hgt, Option.isSome_some, Bool.true_and]
          cases hstop : (decide (mode = ValidationMode.hard) || !ndsd) with
          | true => simp [boundsErrorOf, hlt, hgt, orE_some]
          | false =>
            simp only [Bool.false_eq_true, if_false]
            split
            · simp [boundsErrorOf, hlt, hgt, orE_some, itemsFirstError]
            · rename_i fn
              rw [validateItemsSync_result_char (hf fn rfl) maxE ndsd _ path stC
                elems 0 (some (VError.tooLong m elems.length path)) st]
              simp [boundsErrorOf, hlt, hgt, orE_some, itemsFirstError]
        · simp only [if_neg hgt, Option.isSome_none, Bool.false_and,
            Bool.false_eq_true, if_false]
          split
          · simp [boundsErrorOf, hlt, hgt, orE_none, itemsFirstError]
          · rename_i fn
            rw [validateItemsSync_result_char (hf fn rfl) maxE ndsd _ path stC
              elems 0 Option.none st]
            simp only [orE_none, Nat.sub_zero]
            simp [boundsErrorOf, hlt, hgt, orE_none, itemsFirstError, itemResultAt]
            exact firstErrorFrom_congr elems.length 0 (fun j h1 h2 => by simp [itemResultAt, List.getD_eq_getElem?_getD])
      | none =>
        simp only [Option.isSome_none, Bool.false_and, Bool.false_eq_true,
          if_false]
        split
        · simp [boundsErrorOf, hlt, orE_none, itemsFirstError]
        · rename_i fn
          rw [validateItemsSync_result_char (hf fn rfl) maxE ndsd _ path stC
            elems 0 Option.none st]
          simp only [orE_none, Nat.sub_zero]
          simp [boundsErrorOf, hlt, orE_none, itemsFirstError, itemResultAt]
          exact firstErrorFrom_congr elems.length 0 (fun j h1 h2 => by simp [itemResultAt, List.getD_eq_getElem?_getD])

/-- Characterization of the chunk element loop: its `errorResult` is the
first error over the walked window, a `finished` signal means no positional
cutoff occurred in the window, a `reachedMax` signal exhibits a cutoff index
in the window, and a `stoppedOnError` signal carries an error. -/
theorem processChunkItems_char (items : ItemValidators) (thr : Nat)
    (maxE : Option Nat) (ndsd stop : Bool) (path : String)
    (elems : List JValue) (stC : VState)
    (hd : ∀ v p s1 s2, (dispatchItem items thr v p s1).result =
      (dispatchItem items thr v p s2).result) :
    ∀ count idx err st,
    ((processChunkItems items thr maxE ndsd stop path elems idx count err st).errorResult =
      orE err (firstErrorFrom (itemResultAt (dispatchItem items thr) elems path stC)
        (stopAt ndsd maxE) idx count)) ∧
    ((processChunkItems items thr maxE ndsd stop path elems idx count err st).signal =
        ChunkSignal.finished →
      ∀ j, idx ≤ j → j < idx + count → stopAt ndsd maxE j = false) ∧
    ((processChunkItems items thr maxE ndsd stop path elems idx count err st).signal =
        ChunkSignal.reachedMax →
      ∃ j, idx ≤ j ∧ j < idx + count ∧ stopAt ndsd maxE j = true) ∧
    ((processChunkItems items thr maxE ndsd stop path elems idx count err st).signal =
        ChunkSignal.stoppedOnError →
      (processChunkItems items thr maxE ndsd stop path elems idx count err st).errorResult.isSome = true) := by
  intro count
  induction count with
  | zero =>
    intro idx err st
    simp only [processChunkItems, firstErrorFrom]
    refine ⟨(orE_none_right err).symm, ?_, ?_, ?_⟩
    · intro _ j h1 h2; omega
    · intro h; exact ChunkSignal.noConfusion h
    · intro h; exact ChunkSignal.noConfusion h
  | succ c ih =>
    intro idx err st
    simp only [processChunkItems]
    rw [firstErrorFrom_succ]
    have hstopdef : stopAt ndsd maxE idx = (!ndsd && maxEReached maxE idx) := rfl
    cases hb : (!ndsd && maxEReached maxE idx) with
    | true =>
      rw [hstopdef, hb]
      refine ⟨?_, ?_, ?_, ?_⟩
      · simp [orE_none_right]
      · intro h; exact ChunkSignal.noConfusion h
      · intro _; exact ⟨idx, Nat.le_refl idx, by omega, hstopdef.trans hb⟩
      · intro h; exact ChunkSignal.noConfusion h
    | false =>
      simp only [Bool.false_eq_true, if_false]
      rw [hstopdef, hb]
      simp only [Bool.false_eq_true, if_false]
      have hg : itemResultAt (dispatchItem items thr) elems path stC idx =
          (dispatchItem items thr (elems.getD idx JValue.vundefined)
            (appendPathIndex path idx) st).result :=
        hd (elems.getD idx JValue.vundefined) (appendPathIndex path idx) stC st
      cases herr : err with
      | some e =>
        simp only [reduceCtorEq, false_and, if_false]
        obtain ⟨ihr, ihf, ihm, ihs⟩ := ih (idx + 1) (some e)
          (dispatchItem items thr (elems.getD idx JValue.vundefined)
            (appendPathIndex path idx) st).state
        refine ⟨?_, ?_, ?_, ?_⟩
        · simp only [ihr, orE_some]
        · intro h j h1 h2
          rcases Nat.eq_or_lt_of_le h1 with h1 | h1
          · rw [← h1]; exact hstopdef.trans hb
          · exact ihf h j h1 (by omega)
        · intro h
          obtain ⟨j, hj1, hj2, hj3⟩ := ihm h
          exact ⟨j, by omega, by omega, hj3⟩
        · intro _
          simp only [ihr, orE_some, Option.isSome_some]
      | none =>
        cases hout : (dispatchItem items thr (elems.getD idx JValue.vundefined)
            (appendPathIndex path idx) st).result with
        | some e =>
          have hge : itemResultAt (dispatchItem items thr) elems path stC idx =
              some e := hg.trans hout
          simp only [hout, hge, Option.isSome_some, and_self, and_true, true_and,
            if_true, ite_true, orE_none]
          by_cases hstop : stop = true
          · rw [if_pos hstop]
            refine ⟨rfl, ?_, ?_, ?_⟩
            · intro h; exact ChunkSignal.noConfusion h
            · intro h; exact ChunkSignal.noConfusion h
            · intro _; rfl
          · rw [if_neg hstop]
            obtain ⟨ihr, ihf, ihm, ihs⟩ := ih (idx + 1) (some e)
              (dispatchItem items thr (elems.getD idx JValue.vundefined)
                (appendPathIndex path idx) st).state
            refine ⟨?_, ?_, ?_, ?_⟩
            · simp only [ihr, orE_some]
            · intro h j h1 h2
              rcases Nat.eq_or_lt_of_le h1 with h1 | h1
              · rw [← h1]; exact hstopdef.trans hb
              · exact ihf h j h1 (by omega)
            · intro h
              obtain ⟨j, hj1, hj2, hj3⟩ := ihm h
              exact ⟨j, by omega, by omega, hj3⟩
            · intro _
              simp only [ihr, orE_some, Option.isSome_some]
        | none =>
          have hge : itemResultAt (dispatchItem items thr) elems path stC idx =
              Option.none := hg.trans hout
          simp only [hout, hge, Option.isSome_none, and_false, Bool.false_eq_true,
            if_false, orE_none]
          obtain ⟨ihr, ihf, ihm, ihs⟩ := ih (idx + 1) Option.none
            (dispatchItem items thr (elems.getD idx JValue.vundefined)
              (appendPathIndex path idx) st).state
          refine ⟨?_, ?_, ?_, ?_⟩
          · simp only [ihr, orE_none]
          · intro h j h1 h2
            rcases Nat.eq_or_lt_of_le h1 with h1 | h1
            · rw [← h1]; exact hstopdef.trans hb
            · exact ihf h j h1 (by omega)
          · intro h
            obtain ⟨j, hj1, hj2, hj3⟩ := ihm h
            exact ⟨j, by omega, by omega, hj3⟩
          · intro h; exact ihs h

/-- Characterization of the whole chunk loop: its final `errorResult` (hence
the returned result) is the first error over the indices up to the positional
cutoff (or the end), regardless of the chunk boundaries. -/
theorem processAllChunks_result_char (items : ItemValidators) (thr : Nat)
    (maxE : Option Nat) (ndsd stop : Bool) (path : String)
    (elems : List JValue) (stC : VState) (chunkSize numValues : Nat)
    (hd : ∀ v p s1 s2, (dispatchItem items thr v p s1).result =
      (dispatchItem items thr v p s2).result)
    (hcs : 1 ≤ chunkSize) :
    ∀ fuel chunkStartIndex err st, numValues ≤ chunkStartIndex + fuel →
    (processAllChunks items thr maxE ndsd stop path elems chunkSize numValues
      fuel chunkStartIndex err st).result =
    orE err (firstErrorFrom (itemResultAt (dispatchItem items thr) elems path stC)
      (stopAt ndsd maxE) chunkStartIndex (numValues - chunkStartIndex)) := by
  intro fuel
  induction fuel with
  | zero =>
    intro start err st hfuel
    have h0 : numValues - start = 0 := by omega
    simp only [processAllChunks, h0, firstErrorFrom]
    rw [orE_none_right]
  | succ f ih =>
    intro start err st hfuel
    simp only [processAllChunks, processChunk]
    by_cases hlt : start < numValues
    · rw [if_pos hlt]
      obtain ⟨cr, cf, cm, cs⟩ := processChunkItems_char items thr maxE ndsd stop
        path elems stC hd (min (start + chunkSize) numValues - start) start err
        (popOracle st).2
      cases hsig : (processChunkItems items thr maxE ndsd stop path elems start
          (min (start + chunkSize) numValues - start) err (popOracle st).2).signal with
      | reachedMax =>
        simp only [hsig]
        obtain ⟨j, hj1, hj2, hj3⟩ := cm hsig
        rw [cr]
        have htr : firstErrorFrom (itemResultAt (dispatchItem items thr) elems path stC)
            (stopAt ndsd maxE) start (numValues - start) =
            firstErrorFrom (itemResultAt (dispatchItem items thr) elems path stC)
              (stopAt ndsd maxE) start (min (start + chunkSize) numValues - start) :=
          firstErrorFrom_stop_truncate (numValues - start)
            (min (start + chunkSize) numValues - start) start j hj1 (by omega) hj2 hj3
        rw [htr]
      | stoppedOnError =>
        simp only [hsig]
        have hrest := ih (start + chunkSize)
          (processChunkItems items thr maxE ndsd stop path elems start
            (min (start + chunkSize) numValues - start) err (popOracle st).2).errorResult
          (processChunkItems items thr maxE ndsd stop path elems start
            (min (start + chunkSize) numValues - start) err (popOracle st).2).state
          (by omega)
        rw [hrest, cr]
        have hsome := cs hsig
        rw [cr] at hsome
        cases herr : err with
        | some e => rw [orE_some, orE_some, orE_some]
        | none =>
          rw [herr] at hsome
          rw [orE_none] at hsome
          rw [orE_none, orE_none]
          cases hfe : firstErrorFrom (itemResultAt (dispatchItem items thr) elems
              path stC) (stopAt ndsd maxE) start
              (min (start + chunkSize) numValues - start) with
          | none => rw [hfe] at hsome; exact Bool.noConfusion hsome
          | some e =>
            rw [orE_some]
            exact (firstErrorFrom_some_mono (min (start + chunkSize) numValues - start)
              (numValues - start) start hfe (by omega)).symm
      | finished =>
        simp only [hsig]
        have hnostop := cf hsig
        have hrest := ih (start + chunkSize)
          (processChunkItems items thr maxE ndsd stop path elems start
            (min (start + chunkSize) numValues - start) err (popOracle st).2).errorResult
          (processChunkItems items thr maxE ndsd stop path elems start
            (min (start + chunkSize) numValues - start) err (popOracle st).2).state
          (by omega)
        rw [hrest, cr]
        by_cases hcase : start + chunkSize ≤ numValues
        · have hcount : min (start + chunkSize) numValues - start = chunkSize := by omega
          have hsplitn : numValues - start =
              chunkSize + (numValues - (start + chunkSize)) := by omega
          rw [hsplitn, firstErrorFrom_append chunkSize (numValues - (start + chunkSize))
            start (fun j h1 h2 => hnostop j h1 (by omega))]
          rw [hcount]
          have harith : start + chunkSize = start + chunkSize := rfl
          rw [orE_assoc]
        · have hcount : min (start + chunkSize) numValues - start = numValues - start := by
            omega
          have hzero : numValues - (start + chunkSize) = 0 := by omega
          rw [hcount, hzero]
          simp only [firstErrorFrom]
          rw [orE_none_right]
    · rw [if_neg hlt]
      have h0 : numValues - start = 0 := by omega
      simp only [h0, firstErrorFrom]
      rw [orE_none_right]

/-- Result of the asynchronous array validator body on an actual array: like
the synchronous one, except that the bounds checks are additionally gated on
the validation mode not being `none`. -/
theorem asyncValidateArrayCore_result_char
    {items : Option ItemValidators} (thr : Nat)
    (hd : ∀ itemFns, items = some itemFns →
      ∀ v p s1 s2, (dispatchItem itemFns thr v p s1).result =
        (dispatchItem itemFns thr v p s2).result)
    (minL : Nat) (maxL maxE : Option Nat) (ndsd : Bool)
    (elems : List JValue) (mode : ValidationMode) (path : String)
    (st stC : VState) :
    (asyncValidateArrayCore items minL maxL maxE ndsd thr (JValue.varr elems)
      mode path st).result =
    if (!ndsd && (mode = ValidationMode.none : Bool)) = true then Option.none
    else
      orE (if mode = ValidationMode.none then Option.none
           else boundsErrorOf minL maxL elems.length path)
        (asyncItemsFirstError items thr elems path stC (stopAt ndsd maxE)) := by
  simp only [asyncValidateArrayCore]
  cases h0 : (!ndsd && decide (mode = ValidationMode.none)) with
  | true => simp [h0]
  | false =>
    simp only [h0, Bool.false_eq_true, if_false]
    by_cases hmode : mode = ValidationMode.none
    · simp only [hmode, ne_eq, eq_self_iff_true, not_true, false_and, if_false,
        ite_false, Option.isSome_none, Bool.false_and, Bool.false_eq_true,
        if_true, ite_true]
      split
      · simp [asyncItemsFirstError, orE_none]
      · rename_i itemFns
        rw [processAllChunks_result_char itemFns thr maxE ndsd _ path elems stC
          (max 1 (thr / itemFns.cost)) elems.length (hd itemFns rfl)
          (Nat.le_max_left 1 (thr / itemFns.cost)) elems.length 0 Option.none st
          (by omega)]
        simp [asyncItemsFirstError, orE_none, Nat.sub_zero]
    · simp only [if_neg hmode]
      have hne : (mode ≠ ValidationMode.none) = True := by
        simp [hmode]
      simp only [hne, true_and]
      by_cases hlt : elems.length < minL
      · simp only [if_pos hlt, Option.isSome_some, Bool.true_and]
        cases hstop : (decide (mode = ValidationMode.hard) || !ndsd) with
        | true => simp [boundsErrorOf, hlt, orE_some]
        | false =>
          simp only [Bool.false_eq_true, if_false, reduceCtorEq, ite_false,
            Option.isSome_none, Bool.false_and]
          split
          · simp [boundsErrorOf, hlt, orE_some, asyncItemsFirstError]
          · rename_i itemFns
            rw [processAllChunks_result_char itemFns thr maxE ndsd _ path elems stC
              (max 1 (thr / itemFns.cost)) elems.length (hd itemFns rfl)
              (Nat.le_max_left 1 (thr / itemFns.cost)) elems.length 0
              (some (VError.tooShort minL elems.length path)) st (by omega)]
            simp [boundsErrorOf, hlt, orE_some, asyncItemsFirstError]
      · simp only [if_neg hlt, Option.isSome_none, Bool.false_and,
          Bool.false_eq_true, if_false, reduceCtorEq, eq_self_iff_true, if_true,
          ite_true]
        cases hml : maxL with
        | some m =>
          by_cases hgt : elems.length > m
          · simp only [if_pos hgt, Option.isSome_some, Bool.true_and]
            cases hstop : (decide (mode = ValidationMode.hard) || !ndsd) with
            | true => simp [boundsErrorOf, hlt, hgt, orE_some]
            | false =>
              simp only [Bool.false_eq_true, if_false]
              split
              · simp [boundsErrorOf, hlt, hgt, orE_some, asyncItemsFirstError]
              · rename_i itemFns
                rw [processAllChunks_result_char itemFns thr maxE ndsd _ path elems
                  stC (max 1 (thr / itemFns.cost)) elems.length (hd itemFns rfl)
                  (Nat.le_max_left 1 (thr / itemFns.cost)) elems.length 0
                  (some (VError.tooLong m elems.length path)) st (by omega)]
                simp [boundsErrorOf, hlt, hgt, orE_some, asyncItemsFirstError]
          · simp only [if_neg hgt, Option.isSome_none, Bool.false_and,
              Bool.false_eq_true, if_false]
            split
            · simp [boundsErrorOf, hlt, hgt, orE_none, asyncItemsFirstError]
            · rename_i itemFns
              rw [processAllChunks_result_char itemFns thr maxE ndsd _ path elems
                stC (max 1 (thr / itemFns.cost)) elems.length (hd itemFns rfl)
                (Nat.le_max_left 1 (thr / itemFns.cost)) elems.length 0
                Option.none st (by omega)]
              simp [boundsErrorOf, hlt, hgt, orE_none, asyncItemsFirstError,
                Nat.sub_zero]
        | none =>
          simp only [Option.isSome_none, Bool.false_and, Bool.false_eq_true,
            if_false]
          split
          · simp [boundsErrorOf, hlt, orE_none, asyncItemsFirstError]
          · rename_i itemFns
            rw [processAllChunks_result_char itemFns thr maxE ndsd _ path elems
              stC (max 1 (thr / itemFns.cost)) elems.length (hd itemFns rfl)
              (Nat.le_max_left 1 (thr / itemFns.cost)) elems.length 0
              Option.none st (by omega)]
            simp [boundsErrorOf, hlt, orE_none, asyncItemsFirstError, Nat.sub_zero]

/-- Result of the upgraded combinator given the new schema's output: no
error when the new schema accepted, otherwise exactly the old schema's
result (`noError` when it accepts, its error when it rejects). -/
theorem upgradedAfterNew_result (u : String) (dl : Option String) (v : JValue)
    (newOut : VOut) (validateOld : VState → VOut) :
    (upgradedAfterNew u dl v newOut validateOld).result =
    if newOut.result = Option.none then Option.none
    else (validateOld newOut.state).result := by
  by_cases h1 : newOut.result = Option.none
  · simp [upgradedAfterNew, h1]
  · simp only [upgradedAfterNew, if_neg h1]
    by_cases h2 : (validateOld newOut.state).result = Option.none
    · simp only [if_pos h2]
      by_cases h3 : (!isUndefined v &&
          !((validateOld newOut.state).state.warned.contains u)) = true
      · rw [if_pos h3]; exact h2.symm
      · rw [if_neg h3]; exact h2.symm
    · simp only [if_neg h2]

/-- Validation results do not depend on the threaded state (synchronous
path): the warned-names set only gates logging. -/
theorem internalValidate_result_stable :
    ∀ s v mode path st1 st2,
    (internalValidate s v mode path st1).result =
    (internalValidate s v mode path st2).result := by
  intro s
  induction s using Schema.inductionOn with
  | leaf check cost serDes => intro v mode path st1 st2; rfl
  | arrayNone minL maxL maxE =>
    intro v mode path st1 st2
    cases v with
    | varr elems =>
      simp only [internalValidate]
      rw [validateArrayCore_result_char (fun fn h => Option.noConfusion h)
        minL maxL maxE false elems mode path st1 st1]
      rw [validateArrayCore_result_char (fun fn h => Option.noConfusion h)
        minL maxL maxE false elems mode path st2 st1]
    | vnull => rfl
    | vundefined => rfl
    | vbool b => rfl
    | vnum n => rfl
    | vstr s1 => rfl
  | arraySome itemSchema minL maxL maxE ih =>
    intro v mode path st1 st2
    cases v with
    | varr elems =>
      simp only [internalValidate]
      have hf : ∀ fn, (some (fun item p s => internalValidate itemSchema item mode p s) =
          some fn) → ∀ v1 p s1 s2, (fn v1 p s1).result = (fn v1 p s2).result := by
        intro fn heq v1 p s1 s2
        cases Option.some.inj heq
        exact ih v1 mode p s1 s2
      rw [validateArrayCore_result_char hf minL maxL maxE
        itemSchema.usesCustomSerDes elems mode path st1 st1]
      rw [validateArrayCore_result_char hf minL maxL maxE
        itemSchema.usesCustomSerDes elems mode path st2 st1]
    | vnull => rfl
    | vundefined => rfl
    | vbool b => rfl
    | vnum n => rfl
    | vstr s1 => rfl
  | upgraded name o n dl iho ihn =>
    intro v mode path st1 st2
    simp only [internalValidate]
    rw [upgradedAfterNew_result, upgradedAfterNew_result]
    rw [ihn v mode path st1 st2]
    by_cases h : (internalValidate n v mode path st2).result = Option.none
    · rw [if_pos h, if_pos h]
    · rw [if_neg h, if_neg h]
      exact iho v mode path _ _

/-- Validation results do not depend on the threaded state (asynchronous
path): the yield oracle only gates suspension events. -/
theorem internalValidateAsync_result_stable (thr : Nat) :
    ∀ s v mode path st1 st2,
    (internalValidateAsync thr s v mode path st1).result =
    (internalValidateAsync thr s v mode path st2).result := by
  intro s
  induction s using Schema.inductionOn with
  | leaf check cost serDes => intro v mode path st1 st2; rfl
  | arrayNone minL maxL maxE =>
    intro v mode path st1 st2
    cases v with
    | varr elems =>
      simp only [internalValidateAsync]
      rw [asyncValidateArrayCore_result_char thr (fun fn h => Option.noConfusion h)
        minL maxL maxE false elems mode path st1 st1]
      rw [asyncValidateArrayCore_result_char thr (fun fn h => Option.noConfusion h)
        minL maxL maxE false elems mode path st2 st1]
    | vnull => rfl
    | vundefined => rfl
    | vbool b => rfl
    | vnum n => rfl
    | vstr s1 => rfl
  | arraySome itemSchema minL maxL maxE ih =>
    intro v mode path st1 st2
    cases v with
    | varr elems =>
      simp only [internalValidateAsync]
      have hd : ∀ itemFns,
          (some { runSync := fun item p s => internalValidate itemSchema item mode p s,
                  runAsync := fun item p s => internalValidateAsync thr itemSchema item mode p s,
                  cost := itemSchema.estimatedValidationTimeComplexity } = some itemFns) →
          ∀ v1 p s1 s2, (dispatchItem itemFns thr v1 p s1).result =
            (dispatchItem itemFns thr v1 p s2).result := by
        intro itemFns heq v1 p s1 s2
        cases Option.some.inj heq
        unfold dispatchItem
        split
        · exact ih v1 mode p s1 s2
        · exact internalValidate_result_stable itemSchema v1 mode p s1 s2
      rw [asyncValidateArrayCore_result_char thr hd minL maxL maxE
        itemSchema.usesCustomSerDes elems mode path st1 st1]
      rw [asyncValidateArrayCore_result_char thr hd minL maxL maxE
        itemSchema.usesCustomSerDes elems mode path st2 st1]
    | vnull => rfl
    | vundefined => rfl
    | vbool b => rfl
    | vnum n => rfl
    | vstr s1 => rfl
  | upgraded name o n dl iho ihn =>
    intro v mode path st1 st2
    simp only [internalValidateAsync]
    rw [upgradedAfterNew_result, upgradedAfterNew_result]
    have hnew : ∀ s1 s2 : VState,
        ((if n.estimatedValidationTimeComplexity > thr then
            internalValidateAsync thr n v mode path s1
          else internalValidate n v mode path s1)).result =
        ((if n.estimatedValidationTimeComplexity > thr then
            internalValidateAsync thr n v mode path s2
          else internalValidate n v mode path s2)).result := by
      intro s1 s2
      by_cases hc : n.estimatedValidationTimeComplexity > thr
      · rw [if_pos hc, if_pos hc]; exact ihn v mode path s1 s2
      · rw [if_neg hc, if_neg hc]
        exact internalValidate_result_stable n v mode path s1 s2
    rw [hnew st1 st2]
    by_cases h : ((if n.estimatedValidationTimeComplexity > thr then
        internalValidateAsync thr n v mode path st2
      else internalValidate n v mode path st2)).result = Option.none
    · rw [if_pos h, if_pos h]
    · rw [if_neg h, if_neg h]
      by_cases hc : o.estimatedValidationTimeComplexity > thr
      · rw [if_pos hc, if_pos hc]; exact iho v mode path _ _
      · rw [if_neg hc, if_neg hc]
        exact internalValidate_result_stable o v mode path _ _

theorem orE_eq_none_iff (a b : Option VError) :
    orE a b = Option.none ↔ a = Option.none ∧ b = Option.none := by
  cases a <;> simp [orE]

/-- In the `hard` and `soft` modes, the asynchronous validator computes
exactly the synchronous validator's result (chunking changes only the event
structure, never the reported outcome). -/
theorem async_result_eq_sync (thr : Nat) :
    ∀ s v mode path st1 st2, mode ≠ ValidationMode.none →
    (internalValidateAsync thr s v mode path st1).result =
    (internalValidate s v mode path st2).result := by
  intro s
  induction s using Schema.inductionOn with
  | leaf check cost serDes => intro v mode path st1 st2 hmode; rfl
  | arrayNone minL maxL maxE =>
    intro v mode path st1 st2 hmode
    cases v with
    | varr elems =>
      simp only [internalValidateAsync, internalValidate]
      rw [asyncValidateArrayCore_result_char thr (fun fn h => Option.noConfusion h)
        minL maxL maxE false elems mode path st1 st1]
      rw [validateArrayCore_result_char (fun fn h => Option.noConfusion h)
        minL maxL maxE false elems mode path st2 st1]
      rw [if_neg hmode]
      simp only [asyncItemsFirstError, itemsFirstError]
    | vnull => rfl
    | vundefined => rfl
    | vbool b => rfl
    | vnum n => rfl
    | vstr s1 => rfl
  | arraySome itemSchema minL maxL maxE ih =>
    intro v mode path st1 st2 hmode
    cases v with
    | varr elems =>
      simp only [internalValidateAsync, internalValidate]
      have hd : ∀ itemFns,
          (some { runSync := fun item p s => internalValidate itemSchema item mode p s,
                  runAsync := fun item p s => internalValidateAsync thr itemSchema item mode p s,
                  cost := itemSchema.estimatedValidationTimeComplexity } = some itemFns) →
          ∀ v1 p s1 s2, (dispatchItem itemFns thr v1 p s1).result =
            (dispatchItem itemFns thr v1 p s2).result := by
        intro itemFns heq v1 p s1 s2
        cases Option.some.inj heq
        unfold dispatchItem
        split
        · exact internalValidateAsync_result_stable thr itemSchema v1 mode p s1 s2
        · exact internalValidate_result_stable itemSchema v1 mode p s1 s2
      have hf : ∀ fn, (some (fun item p s => internalValidate itemSchema item mode p s) =
          some fn) → ∀ v1 p s1 s2, (fn v1 p s1).result = (fn v1 p s2).result := by
        intro fn heq v1 p s1 s2
        cases Option.some.inj heq
        exact internalValidate_result_stable itemSchema v1 mode p s1 s2
      rw [asyncValidateArrayCore_result_char thr hd minL maxL maxE
        itemSchema.usesCustomSerDes elems mode path st1 st1]
      rw [validateArrayCore_result_char hf minL maxL maxE
        itemSchema.usesCustomSerDes elems mode path st2 st1]
      rw [if_neg hmode]
      simp only [asyncItemsFirstError, itemsFirstError]
      have hwalk : firstErrorFrom (itemResultAt (dispatchItem
          { runSync := fun item p s => internalValidate itemSchema item mode p s,
            runAsync := fun item p s => internalValidateAsync thr itemSchema item mode p s,
            cost := itemSchema.estimatedValidationTimeComplexity } thr) elems path st1)
          (stopAt itemSchema.usesCustomSerDes maxE) 0 elems.length =
          firstErrorFrom (itemResultAt
            (fun item p s => internalValidate itemSchema item mode p s) elems path st1)
          (stopAt itemSchema.usesCustomSerDes maxE) 0 elems.length := by
        apply firstErrorFrom_congr
        intro j h1 h2
        simp only [itemResultAt, dispatchItem]
        split
        · exact ih (elems.getD j JValue.vundefined) mode (appendPathIndex path j)
            st1 st1 hmode
        · rfl
      rw [hwalk]
    | vnull => rfl
    | vundefined => rfl
    | vbool b => rfl
    | vnum n => rfl
    | vstr s1 => rfl
  | upgraded name o n dl iho ihn =>
    intro v mode path st1 st2 hmode
    simp only [internalValidateAsync, internalValidate]
    rw [upgradedAfterNew_result, upgradedAfterNew_result]
    have hnew : ((if n.estimatedValidationTimeComplexity > thr then
          internalValidateAsync thr n v mode path st1
        else internalValidate n v mode path st1)).result =
        (internalValidate n v mode path st2).result := by
      by_cases hc : n.estimatedValidationTimeComplexity > thr
      · rw [if_pos hc]; exact ihn v mode path st1 st2 hmode
      · rw [if_neg hc]; exact internalValidate_result_stable n v mode path st1 st2
    rw [hnew]
    by_cases h : (internalValidate n v mode path st2).result = Option.none
    · rw [if_pos h, if_pos h]
    · rw [if_neg h, if_neg h]
      by_cases hc : o.estimatedValidationTimeComplexity > thr
      · rw [if_pos hc]; exact iho v mode path _ _ hmode
      · rw [if_neg hc]; exact internalValidate_result_stable o v mode path _ _

/-- In mode `none`, any value the synchronous validator accepts is also
accepted by the asynchronous validator (the asynchronous path only skips
checks the synchronous path performs). -/
theorem async_none_of_sync_none (thr : Nat) :
    ∀ s v path st1 st2,
    (internalValidate s v ValidationMode.none path st1).result = Option.none →
    (internalValidateAsync thr s v ValidationMode.none path st2).result = Option.none := by
  intro s
  induction s using Schema.inductionOn with
  | leaf check cost serDes => intro v path st1 st2 _; rfl
  | arrayNone minL maxL maxE =>
    intro v path st1 st2 h
    cases v with
    | varr elems =>
      simp only [internalValidateAsync]
      rw [asyncValidateArrayCore_result_char thr (fun fn hx => Option.noConfusion hx)
        minL maxL maxE false elems ValidationMode.none path st2 st2]
      simp
    | vnull => exact absurd h (by simp [internalValidate, validateArrayCore])
    | vundefined => exact absurd h (by simp [internalValidate, validateArrayCore])
    | vbool b => exact absurd h (by simp [internalValidate, validateArrayCore])
    | vnum n => exact absurd h (by simp [internalValidate, validateArrayCore])
    | vstr s1 => exact absurd h (by simp [internalValidate, validateArrayCore])
  | arraySome itemSchema minL maxL maxE ih =>
    intro v path st1 st2 h
    cases v with
    | varr elems =>
      simp only [internalValidateAsync]
      have hd : ∀ itemFns,
          (some { runSync := fun item p s => internalValidate itemSchema item ValidationMode.none p s,
                  runAsync := fun item p s => internalValidateAsync thr itemSchema item ValidationMode.none p s,
                  cost := itemSchema.estimatedValidationTimeComplexity } = some itemFns) →
          ∀ v1 p s1 s2, (dispatchItem itemFns thr v1 p s1).result =
            (dispatchItem itemFns thr v1 p s2).result := by
        intro itemFns heq v1 p s1 s2
        cases Option.some.inj heq
        unfold dispatchItem
        split
        · exact internalValidateAsync_result_stable thr itemSchema v1
            ValidationMode.none p s1 s2
        · exact internalValidate_result_stable itemSchema v1 ValidationMode.none p s1 s2
      rw [asyncValidateArrayCore_result_char thr hd minL maxL maxE
        itemSchema.usesCustomSerDes elems ValidationMode.none path st2 st2]
      cases hscd : itemSchema.usesCustomSerDes with
      | false => simp
      | true =>
        simp only [hscd, Bool.not_true, Bool.false_and, Bool.false_eq_true,
          if_false, ite_false, if_true, ite_true, orE_none]
        have hf : ∀ fn, (some (fun item p s =>
            internalValidate itemSchema item ValidationMode.none p s) = some fn) →
            ∀ v1 p s1 s2, (fn v1 p s1).result = (fn v1 p s2).result := by
          intro fn heq v1 p s1 s2
          cases Option.some.inj heq
          exact internalValidate_result_stable itemSchema v1 ValidationMode.none p s1 s2
        rw [internalValidate] at h
        rw [validateArrayCore_result_char hf minL maxL maxE
          itemSchema.usesCustomSerDes elems ValidationMode.none path st1 st2] at h
        rw [hscd] at h
        simp only [Bool.not_true, Bool.false_and, Bool.false_eq_true, if_false,
          ite_false, itemsFirstError] at h
        rw [orE_eq_none_iff] at h
        simp only [asyncItemsFirstError]
        refine firstErrorFrom_none_mono elems.length 0 ?_ h.2
        intro j hj1 hj2 hnone
        simp only [itemResultAt, dispatchItem] at hnone ⊢
        split
        · exact ih (elems.getD j JValue.vundefined) (appendPathIndex path j)
            st2 st2 hnone
        · exact hnone
    | vnull => exact absurd h (by simp [internalValidate, validateArrayCore])
    | vundefined => exact absurd h (by simp [internalValidate, validateArrayCore])
    | vbool b => exact absurd h (by simp [internalValidate, validateArrayCore])
    | vnum n => exact absurd h (by simp [internalValidate, validateArrayCore])
    | vstr s1 => exact absurd h (by simp [internalValidate, validateArrayCore])
  | upgraded name o n dl iho ihn =>
    intro v path st1 st2 h
    simp only [internalValidate, upgradedAfterNew_result] at h
    simp only [internalValidateAsync, upgradedAfterNew_result]
    by_cases hnew : ((if n.estimatedValidationTimeComplexity > thr then
        internalValidateAsync thr n v ValidationMode.none path st2
      else internalValidate n v ValidationMode.none path st2)).result = Option.none
    · rw [if_pos hnew]
    · rw [if_neg hnew]
      have hsyncnew : ¬(internalValidate n v ValidationMode.none path st1).result =
          Option.none := by
        intro hcon
        apply hnew
        by_cases hc : n.estimatedValidationTimeComplexity > thr
        · rw [if_pos hc]; exact ihn v path st1 st2 hcon
        · rw [if_neg hc]
          rw [internalValidate_result_stable n v ValidationMode.none path st2 st1]
          exact hcon
      rw [if_neg hsyncnew] at h
      by_cases hc : o.estimatedValidationTimeComplexity > thr
      · rw [if_pos hc]; exact iho v path _ _ h
      · rw [if_neg hc]
        rw [internalValidate_result_stable o v ValidationMode.none path _
          (internalValidate n v ValidationMode.none path st1).state]
        exact h

/-- C1: for array validation with `shouldStopOnFirstError` (mode `hard`, or
item schema without custom serialization), validation is claimed to stop at
the first error in both paths.  The synchronous path does stop (only element
0 is visited and its error is returned), and the asynchronous path returns
that same first error — but, because the chunk loop's handling of a
chunk's stop signal is the effect-free statement `chunkRes;`, the
asynchronous path still validates the element of the following chunk (the
`checkedItem "[1]"` event below), contradicting the claimed short-circuit.
Threshold 1 with item cost 1 gives chunk size 1. -/
theorem C1_async_continues_after_first_error :
    (internalValidateAsync 1 (Schema.array (some stringLeaf) 0 Option.none Option.none)
      (JValue.varr [JValue.vnum 0, JValue.vstr "x"]) ValidationMode.hard ""
      emptyState).result = some (VError.leafFailure "number" "[0]") ∧
    VEvent.checkedItem "[1]" ∈
      (internalValidateAsync 1 (Schema.array (some stringLeaf) 0 Option.none Option.none)
        (JValue.varr [JValue.vnum 0, JValue.vstr "x"]) ValidationMode.hard ""
        emptyState).events ∧
    (internalValidate (Schema.array (some stringLeaf) 0 Option.none Option.none)
      (JValue.varr [JValue.vnum 0, JValue.vstr "x"]) ValidationMode.hard ""
      emptyState).events = [VEvent.checkedItem "[0]"] ∧
    (internalValidate (Schema.array (some stringLeaf) 0 Option.none Option.none)
      (JValue.varr [JValue.vnum 0, JValue.vstr "x"]) ValidationMode.hard ""
      emptyState).result = some (VError.leafFailure "number" "[0]") := by
  decide

/-- C2: an array schema's estimated validation time complexity equals the
item schema's cost (default 1 when there is no items schema) multiplied by
the representative length of the spec's cost model (`specArrayCost`):
`maxEntriesToValidate` when the array skips serialization work, else
`maxLength`, else the fixed default average length 100. -/
theorem C2_array_cost_formula (items : Option Schema) (minLength : Nat)
    (maxLength maxEntriesToValidate : Option Nat) :
    (Schema.array items minLength maxLength maxEntriesToValidate).estimatedValidationTimeComplexity =
    specArrayCost ((items.map Schema.estimatedValidationTimeComplexity).getD 1)
      (!(Schema.array items minLength maxLength maxEntriesToValidate).usesCustomSerDes)
      maxLength maxEntriesToValidate := by
  cases items with
  | none => rfl
  | some itemSchema =>
    simp only [Schema.estimatedValidationTimeComplexity, Schema.usesCustomSerDes,
      specArrayCost, ESTIMATED_AVG_ARRAY_LENGTH, Option.map_some', Option.getD_some]
    rcases Bool.eq_false_or_eq_true itemSchema.usesCustomSerDes with hscd | hscd <;>
      simp [hscd]

/-- C3: for every schema built from the leaf, array and upgraded kinds, any
value the synchronous validator accepts (no error) is also accepted by the
asynchronous validator, at any threshold, mode, path and states — both
validators report no error. -/
theorem C3_sync_async_agree_on_valid (thr : Nat) (s : Schema) (v : JValue)
    (mode : ValidationMode) (path : String) (st1 st2 : VState)
    (h : (internalValidate s v mode path st1).result = Option.none) :
    (internalValidate s v mode path st2).result = Option.none ∧
    (internalValidateAsync thr s v mode path st2).result = Option.none := by
  constructor
  · exact (internalValidate_result_stable s v mode path st2 st1).trans h
  · by_cases hmode : mode = ValidationMode.none
    · subst hmode
      exact async_none_of_sync_none thr s v path st1 st2 h
    · rw [async_result_eq_sync thr s v mode path st2 st1 hmode]
      exact h

theorem C3_sync_async_agree_on_valid_witness :
    (internalValidate
      (Schema.upgraded "w3" numberLeaf
        (Schema.array (some stringLeaf) 0 Option.none Option.none) Option.none)
      (JValue.varr [JValue.vstr "a"]) ValidationMode.hard "" emptyState).result =
      Option.none ∧
    (internalValidateAsync 2
      (Schema.upgraded "w3" numberLeaf
        (Schema.array (some stringLeaf) 0 Option.none Option.none) Option.none)
      (JValue.varr [JValue.vstr "a"]) ValidationMode.hard "" emptyState).result =
      Option.none :=
  C3_sync_async_agree_on_valid 2
    (Schema.upgraded "w3" numberLeaf
      (Schema.array (some stringLeaf) 0 Option.none Option.none) Option.none)
    (JValue.varr [JValue.vstr "a"]) ValidationMode.hard "" emptyState emptyState
    (by decide)

/-- C10: an array schema without an items schema accepts every actual array
satisfying its bounds, in both paths, in every mode, whatever the elements
are. -/
theorem C10_array_without_items_accepts (thr minLength : Nat)
    (maxLength maxEntriesToValidate : Option Nat) (elems : List JValue)
    (mode : ValidationMode) (path : String) (st1 st2 : VState)
    (hmin : minLength ≤ elems.length)
    (hmax : ∀ m, maxLength = some m → elems.length ≤ m) :
    (internalValidate (Schema.array Option.none minLength maxLength maxEntriesToValidate)
      (JValue.varr elems) mode path st1).result = Option.none ∧
    (internalValidateAsync thr (Schema.array Option.none minLength maxLength maxEntriesToValidate)
      (JValue.varr elems) mode path st2).result = Option.none := by
  have hbounds : boundsErrorOf minLength maxLength elems.length path = Option.none := by
    simp only [boundsErrorOf, if_neg (by omega : ¬elems.length < minLength)]
    cases maxLength with
    | none => rfl
    | some m => simp [Nat.not_lt.mpr (hmax m rfl)]
  constructor
  · simp only [internalValidate]
    rw [validateArrayCore_result_char (fun fn h => Option.noConfusion h)
      minLength maxLength maxEntriesToValidate false elems mode path st1 st1]
    split
    · rfl
    · rw [hbounds]; rfl
  · simp only [internalValidateAsync]
    rw [asyncValidateArrayCore_result_char thr (fun fn h => Option.noConfusion h)
      minLength maxLength maxEntriesToValidate false elems mode path st2 st2]
    split
    · rfl
    · rw [hbounds]
      simp only [asyncItemsFirstError]
      split <;> rfl

theorem C10_array_without_items_accepts_witness :
    (internalValidate (Schema.array Option.none 1 (some 3) Option.none)
      (JValue.varr [JValue.vbool true, JValue.vnull]) ValidationMode.hard ""
      emptyState).result = Option.none ∧
    (internalValidateAsync 7 (Schema.array Option.none 1 (some 3) Option.none)
      (JValue.varr [JValue.vbool true, JValue.vnull]) ValidationMode.hard ""
      emptyState).result = Option.none :=
  C10_array_without_items_accepts 7 1 (some 3) Option.none
    [JValue.vbool true, JValue.vnull] ValidationMode.hard "" emptyState emptyState
    (by decide) (fun m hm => by cases hm; decide)

/-- C8: in the ordinary validation modes (`hard`, `soft`), an array shorter
than `minLength` is rejected with exactly the "too short" length violation
(in both paths); one longer than `maxLength` with exactly the distinct "too
long" violation; and when both bounds are satisfied the result is the same
as with no bounds at all — the value is not rejected on length grounds.  At
most one error is ever reported per call because a result carries at most
one error by construction. -/
theorem C8_length_bounds (thr : Nat) (items : Option Schema) (minLength : Nat)
    (maxLength maxEntriesToValidate : Option Nat) (elems : List JValue)
    (mode : ValidationMode) (path : String) (st1 st2 : VState)
    (hmode : mode = ValidationMode.hard ∨ mode = ValidationMode.soft) :
    (elems.length < minLength →
      (internalValidate (Schema.array items minLength maxLength maxEntriesToValidate)
        (JValue.varr elems) mode path st1).result =
        some (VError.tooShort minLength elems.length path) ∧
      (internalValidateAsync thr (Schema.array items minLength maxLength maxEntriesToValidate)
        (JValue.varr elems) mode path st2).result =
        some (VError.tooShort minLength elems.length path)) ∧
    (∀ m, maxLength = some m → minLength ≤ elems.length → m < elems.length →
      (internalValidate (Schema.array items minLength maxLength maxEntriesToValidate)
        (JValue.varr elems) mode path st1).result =
        some (VError.tooLong m elems.length path) ∧
      (internalValidateAsync thr (Schema.array items minLength maxLength maxEntriesToValidate)
        (JValue.varr elems) mode path st2).result =
        some (VError.tooLong m elems.length path)) ∧
    (minLength ≤ elems.length → (∀ m, maxLength = some m → elems.length ≤ m) →
      (internalValidate (Schema.array items minLength maxLength maxEntriesToValidate)
        (JValue.varr elems) mode path st1).result =
      (internalValidate (Schema.array items 0 Option.none maxEntriesToValidate)
        (JValue.varr elems) mode path st1).result ∧
      (internalValidateAsync thr (Schema.array items minLength maxLength maxEntriesToValidate)
        (JValue.varr elems) mode path st2).result =
      (internalValidateAsync thr (Schema.array items 0 Option.none maxEntriesToValidate)
        (JValue.varr elems) mode path st2).result) := by
  have hne : mode ≠ ValidationMode.none := by
    rcases hmode with h | h <;> (rw [h]; intro hcon; cases hcon)
  have hd0 : decide (mode = ValidationMode.none) = false := decide_eq_false hne
  have hasync : ∀ s : Schema,
      (internalValidateAsync thr s (JValue.varr elems) mode path st2).result =
      (internalValidate s (JValue.varr elems) mode path st1).result :=
    fun s => async_result_eq_sync thr s (JValue.varr elems) mode path st2 st1 hne
  obtain ⟨Fitems, hkey⟩ : ∃ F, ∀ (minL : Nat) (maxL : Option Nat),
      (internalValidate (Schema.array items minL maxL maxEntriesToValidate)
        (JValue.varr elems) mode path st1).result =
      orE (boundsErrorOf minL maxL elems.length path) F := by
    cases items with
    | none =>
      refine ⟨Option.none, fun minL maxL => ?_⟩
      simp only [internalValidate]
      rw [validateArrayCore_result_char (fun fn h => Option.noConfusion h)
        minL maxL maxEntriesToValidate false elems mode path st1 st1]
      simp [hd0, itemsFirstError]
    | some isch =>
      have hf : ∀ fn, (some (fun item p s => internalValidate isch item mode p s) =
          some fn) → ∀ v1 p s1 s2, (fn v1 p s1).result = (fn v1 p s2).result := by
        intro fn heq v1 p s1 s2
        cases Option.some.inj heq
        exact internalValidate_result_stable isch v1 mode p s1 s2
      refine ⟨itemsFirstError
        (some (fun item p s => internalValidate isch item mode p s)) elems path st1
        (stopAt isch.usesCustomSerDes maxEntriesToValidate), fun minL maxL => ?_⟩
      simp only [internalValidate]
      rw [validateArrayCore_result_char hf minL maxL maxEntriesToValidate
        isch.usesCustomSerDes elems mode path st1 st1]
      simp [hd0]
  refine ⟨?_, ?_, ?_⟩
  · intro hlt
    have hsync : (internalValidate (Schema.array items minLength maxLength
        maxEntriesToValidate) (JValue.varr elems) mode path st1).result =
        some (VError.tooShort minLength elems.length path) := by
      rw [hkey minLength maxLength]
      simp only [boundsErrorOf, if_pos hlt, orE_some]
    exact ⟨hsync, (hasync _).trans hsync⟩
  · intro m hm hge hgt
    have hsync : (internalValidate (Schema.array items minLength maxLength
        maxEntriesToValidate) (JValue.varr elems) mode path st1).result =
        some (VError.tooLong m elems.length path) := by
      rw [hkey minLength maxLength, hm]
      simp only [boundsErrorOf, if_neg (by omega : ¬elems.length < minLength)]
      simp only [if_pos (by omega : elems.length > m), orE_some]
    exact ⟨hsync, (hasync _).trans hsync⟩
  · intro hge hle
    have hb : boundsErrorOf minLength maxLength elems.length path = Option.none := by
      simp only [boundsErrorOf, if_neg (by omega : ¬elems.length < minLength)]
      cases maxLength with
      | none => rfl
      | some m => simp [Nat.not_lt.mpr (hle m rfl)]
    have hsync : (internalValidate (Schema.array items minLength maxLength
        maxEntriesToValidate) (JValue.varr elems) mode path st1).result =
        (internalValidate (Schema.array items 0 Option.none maxEntriesToValidate)
          (JValue.varr elems) mode path st1).result := by
      rw [hkey minLength maxLength, hkey 0 Option.none, hb]
      simp [boundsErrorOf, Nat.not_lt_zero]
    exact ⟨hsync, by rw [hasync, hasync]; exact hsync⟩

theorem C8_length_bounds_witness :
    ((internalValidate (Schema.array (some stringLeaf) 2 (some 3) Option.none)
      (JValue.varr [JValue.vstr "a"]) ValidationMode.hard "" emptyState).result =
      some (VError.tooShort 2 1 "") ∧
     (internalValidateAsync 4 (Schema.array (some stringLeaf) 2 (some 3) Option.none)
      (JValue.varr [JValue.vstr "a"]) ValidationMode.hard "" emptyState).result =
      some (VError.tooShort 2 1 "")) :=
  (C8_length_bounds 4 (some stringLeaf) 2 (some 3) Option.none [JValue.vstr "a"]
    ValidationMode.hard "" emptyState emptyState (Or.inl rfl)).1 (by decide)

/-- C9: in validation mode `none`, for an array whose items use custom
serialization, the asynchronous validator's behavior on an actual array is
entirely independent of the `minLength`/`maxLength` bounds (they can be
replaced by the defaults without changing the output at all — its bounds
checks are gated on the mode), whereas the synchronous validator still
reports the corresponding length violation when a bound is violated. -/
theorem C9_none_mode_bounds_gating (thr : Nat) (itemSchema : Schema)
    (hscd : itemSchema.usesCustomSerDes = true) (minLength : Nat)
    (maxLength maxEntriesToValidate : Option Nat) (elems : List JValue)
    (path : String) (st : VState) :
    internalValidateAsync thr
      (Schema.array (some itemSchema) minLength maxLength maxEntriesToValidate)
      (JValue.varr elems) ValidationMode.none path st =
    internalValidateAsync thr
      (Schema.array (some itemSchema) 0 Option.none maxEntriesToValidate)
      (JValue.varr elems) ValidationMode.none path st ∧
    (elems.length < minLength →
      (internalValidate
        (Schema.array (some itemSchema) minLength maxLength maxEntriesToValidate)
        (JValue.varr elems) ValidationMode.none path st).result =
      some (VError.tooShort minLength elems.length path)) ∧
    (∀ m, maxLength = some m → minLength ≤ elems.length → m < elems.length →
      (internalValidate
        (Schema.array (some itemSchema) minLength maxLength maxEntriesToValidate)
        (JValue.varr elems) ValidationMode.none path st).result =
      some (VError.tooLong m elems.length path)) := by
  have hf : ∀ fn, (some (fun item p s =>
      internalValidate itemSchema item ValidationMode.none p s) = some fn) →
      ∀ v1 p s1 s2, (fn v1 p s1).result = (fn v1 p s2).result := by
    intro fn heq v1 p s1 s2
    cases Option.some.inj heq
    exact internalValidate_result_stable itemSchema v1 ValidationMode.none p s1 s2
  refine ⟨?_, ?_, ?_⟩
  · simp [internalValidateAsync, asyncValidateArrayCore, hscd]
  · intro hlt
    simp only [internalValidate]
    rw [validateArrayCore_result_char hf minLength maxLength maxEntriesToValidate
      itemSchema.usesCustomSerDes elems ValidationMode.none path st st]
    rw [hscd]
    simp only [Bool.not_true, Bool.false_and, Bool.false_eq_true, if_false,
      ite_false, boundsErrorOf, if_pos hlt, orE_some]
  · intro m hm hge hgt
    simp only [internalValidate]
    rw [validateArrayCore_result_char hf minLength maxLength maxEntriesToValidate
      itemSchema.usesCustomSerDes elems ValidationMode.none path st st]
    rw [hscd, hm]
    simp only [Bool.not_true, Bool.false_and, Bool.false_eq_true, if_false,
      ite_false, boundsErrorOf, if_neg (by omega : ¬elems.length < minLength)]
    simp only [if_pos (by omega : elems.length > m), orE_some]

theorem C9_none_mode_bounds_gating_witness :
    (internalValidate
      (Schema.array (some serDesLeaf) 2 (some 3) Option.none)
      (JValue.varr [JValue.vnum 5]) ValidationMode.none "" emptyState).result =
    some (VError.tooShort 2 1 "") :=
  (C9_none_mode_bounds_gating 4 serDesLeaf (by decide) 2 (some 3) Option.none
    [JValue.vnum 5] "" emptyState).2.1 (by decide)

/-- C6: for an array schema whose items do not use custom serialization and
with `maxEntriesToValidate = k`, an array whose first `k` elements are valid
validates successfully in both paths, in every mode (including `hard`), even
when elements at index `k` or beyond are invalid; with `maxEntriesToValidate`
unset and some invalid element at index `k` or beyond, the same array fails
in both paths (under the ordinary validation modes `hard`/`soft`; mode `none`
skips checks by design). -/
theorem C6_maxEntries_truncation (thr : Nat) (itemSchema : Schema)
    (hscd : itemSchema.usesCustomSerDes = false) (k : Nat)
    (elems : List JValue) (mode : ValidationMode) (path : String)
    (st1 st2 : VState)
    (hvalid : ∀ j, j < k → j < elems.length →
      (internalValidate itemSchema (elems.getD j JValue.vundefined) mode
        (appendPathIndex path j) emptyState).result = Option.none) :
    ((internalValidate (Schema.array (some itemSchema) 0 Option.none (some k))
        (JValue.varr elems) mode path st1).result = Option.none ∧
     (internalValidateAsync thr (Schema.array (some itemSchema) 0 Option.none (some k))
        (JValue.varr elems) mode path st2).result = Option.none) ∧
    ((mode = ValidationMode.hard ∨ mode = ValidationMode.soft) →
     (∃ j, k ≤ j ∧ j < elems.length ∧
        (internalValidate itemSchema (elems.getD j JValue.vundefined) mode
          (appendPathIndex path j) emptyState).result ≠ Option.none) →
     (internalValidate (Schema.array (some itemSchema) 0 Option.none Option.none)
        (JValue.varr elems) mode path st1).result ≠ Option.none ∧
     (internalValidateAsync thr (Schema.array (some itemSchema) 0 Option.none Option.none)
        (JValue.varr elems) mode path st2).result ≠ Option.none) := by
  have hf : ∀ fn, (some (fun item p s => internalValidate itemSchema item mode p s) =
      some fn) → ∀ v1 p s1 s2, (fn v1 p s1).result = (fn v1 p s2).result := by
    intro fn heq v1 p s1 s2
    cases Option.some.inj heq
    exact internalValidate_result_stable itemSchema v1 mode p s1 s2
  have hb : boundsErrorOf 0 Option.none elems.length path = Option.none := by
    simp [boundsErrorOf]
  have hsync1 : (internalValidate (Schema.array (some itemSchema) 0 Option.none (some k))
      (JValue.varr elems) mode path st1).result = Option.none := by
    simp only [internalValidate]
    rw [validateArrayCore_result_char hf 0 Option.none (some k)
      itemSchema.usesCustomSerDes elems mode path st1 emptyState]
    split
    · rfl
    · rw [hb, orE_none]
      simp only [itemsFirstError]
      apply firstErrorFrom_eq_none_of elems.length 0
      intro j h1 h2 hstop
      have hjk : j < k := by
        simp only [stopAt, hscd, Bool.not_false, Bool.true_and, maxEReached,
          decide_eq_false_iff_not, Nat.not_le] at hstop
        exact hstop
      simp only [itemResultAt]
      exact hvalid j hjk (by omega)
  refine ⟨⟨hsync1, ?_⟩, ?_⟩
  · by_cases hmode : mode = ValidationMode.none
    · subst hmode
      exact async_none_of_sync_none thr _ _ path st1 st2 hsync1
    · rw [async_result_eq_sync thr _ _ mode path st2 st1 hmode]
      exact hsync1
  · intro hmode hex
    have hne : mode ≠ ValidationMode.none := by
      rcases hmode with h | h <;> (rw [h]; intro hcon; cases hcon)
    have hd0 : decide (mode = ValidationMode.none) = false := decide_eq_false hne
    have hnostop : ∀ j, 0 ≤ j → j < 0 + elems.length →
        stopAt itemSchema.usesCustomSerDes Option.none j = false := by
      intro j _ _
      simp [stopAt, maxEReached]
    have hsyncfail : (internalValidate (Schema.array (some itemSchema) 0 Option.none
        Option.none) (JValue.varr elems) mode path st1).result ≠ Option.none := by
      simp only [internalValidate]
      rw [validateArrayCore_result_char hf 0 Option.none Option.none
        itemSchema.usesCustomSerDes elems mode path st1 emptyState]
      simp only [hd0, Bool.and_false, Bool.false_eq_true, if_false, ite_false]
      rw [hb, orE_none]
      simp only [itemsFirstError]
      obtain ⟨j, hj1, hj2, hj3⟩ := hex
      intro hzero
      rw [firstErrorFrom_eq_none_iff elems.length 0 hnostop] at hzero
      apply hj3
      have := hzero j (by omega) (by omega)
      simp only [itemResultAt] at this
      exact this
    refine ⟨hsyncfail, ?_⟩
    rw [async_result_eq_sync thr _ _ mode path st2 st1 hne]
    exact hsyncfail

theorem C6_maxEntries_truncation_witness :
    (((internalValidate (Schema.array (some stringLeaf) 0 Option.none (some 1))
        (JValue.varr [JValue.vstr "a", JValue.vnum 7]) ValidationMode.hard ""
        emptyState).result = Option.none ∧
      (internalValidateAsync 3 (Schema.array (some stringLeaf) 0 Option.none (some 1))
        (JValue.varr [JValue.vstr "a", JValue.vnum 7]) ValidationMode.hard ""
        emptyState).result = Option.none) ∧
     ((internalValidate (Schema.array (some stringLeaf) 0 Option.none Option.none)
        (JValue.varr [JValue.vstr "a", JValue.vnum 7]) ValidationMode.hard ""
        emptyState).result ≠ Option.none ∧
      (internalValidateAsync 3 (Schema.array (some stringLeaf) 0 Option.none Option.none)
        (JValue.varr [JValue.vstr "a", JValue.vnum 7]) ValidationMode.hard ""
        emptyState).result ≠ Option.none)) := by
  have h := C6_maxEntries_truncation 3 stringLeaf (by decide) 1
    [JValue.vstr "a", JValue.vnum 7] ValidationMode.hard "" emptyState emptyState
    (by decide)
  exact ⟨h.1, h.2 (Or.inl rfl) ⟨1, by omega, by decide, by decide⟩⟩

/-- C4: the upgraded combinator validates the new schema first; when it
accepts, the combinator returns no error and adds nothing to the trace or
warned-set beyond the new schema's own output (no warning of its own); when
both schemas reject, the returned error is the old schema's error (the new
schema's error is discarded).  Both the synchronous and the asynchronous
combinator (whose children are dispatched by cost) behave this way. -/
theorem C4_upgraded_order (thr : Nat) (name : String) (o n : Schema)
    (dl : Option String) (v : JValue) (mode : ValidationMode) (path : String)
    (st : VState) :
    (((internalValidate n v mode path st).result = Option.none →
      internalValidate (Schema.upgraded name o n dl) v mode path st =
      { result := Option.none,
        state := (internalValidate n v mode path st).state,
        events := (internalValidate n v mode path st).events }) ∧
     ((internalValidate n v mode path st).result ≠ Option.none →
      (internalValidate o v mode path
        (internalValidate n v mode path st).state).result ≠ Option.none →
      (internalValidate (Schema.upgraded name o n dl) v mode path st).result =
      (internalValidate o v mode path
        (internalValidate n v mode path st).state).result)) ∧
    (((if n.estimatedValidationTimeComplexity > thr then
        internalValidateAsync thr n v mode path st
      else internalValidate n v mode path st).result = Option.none →
      internalValidateAsync thr (Schema.upgraded name o n dl) v mode path st =
      { result := Option.none,
        state := (if n.estimatedValidationTimeComplexity > thr then
            internalValidateAsync thr n v mode path st
          else internalValidate n v mode path st).state,
        events := (if n.estimatedValidationTimeComplexity > thr then
            internalValidateAsync thr n v mode path st
          else internalValidate n v mode path st).events }) ∧
     ((if n.estimatedValidationTimeComplexity > thr then
        internalValidateAsync thr n v mode path st
      else internalValidate n v mode path st).result ≠ Option.none →
      (if o.estimatedValidationTimeComplexity > thr then
        internalValidateAsync thr o v mode path
          (if n.estimatedValidationTimeComplexity > thr then
            internalValidateAsync thr n v mode path st
          else internalValidate n v mode path st).state
      else internalValidate o v mode path
          (if n.estimatedValidationTimeComplexity > thr then
            internalValidateAsync thr n v mode path st
          else internalValidate n v mode path st).state).result ≠ Option.none →
      (internalValidateAsync thr (Schema.upgraded name o n dl) v mode path st).result =
      (if o.estimatedValidationTimeComplexity > thr then
        internalValidateAsync thr o v mode path
          (if n.estimatedValidationTimeComplexity > thr then
            internalValidateAsync thr n v mode path st
          else internalValidate n v mode path st).state
      else internalValidate o v mode path
          (if n.estimatedValidationTimeComplexity > thr then
            internalValidateAsync thr n v mode path st
          else internalValidate n v mode path st).state).result)) := by
  refine ⟨⟨?_, ?_⟩, ⟨?_, ?_⟩⟩
  · intro h1
    simp only [internalValidate, upgradedAfterNew, if_pos h1]
  · intro h1 h2
    simp only [internalValidate, upgradedAfterNew, if_neg h1, if_neg h2]
  · intro h1
    simp only [internalValidateAsync, upgradedAfterNew, if_pos h1]
  · intro h1 h2
    simp only [internalValidateAsync, upgradedAfterNew, if_neg h1, if_neg h2]

theorem C4_upgraded_order_witness :
    (internalValidate (Schema.upgraded "u4" numberLeaf stringLeaf Option.none)
      (JValue.vstr "ok") ValidationMode.hard "" emptyState =
      { result := Option.none,
        state := (internalValidate stringLeaf (JValue.vstr "ok")
          ValidationMode.hard "" emptyState).state,
        events := (internalValidate stringLeaf (JValue.vstr "ok")
          ValidationMode.hard "" emptyState).events }) ∧
    ((internalValidate (Schema.upgraded "u4" numberLeaf stringLeaf Option.none)
      (JValue.vbool true) ValidationMode.hard "" emptyState).result =
      (internalValidate numberLeaf (JValue.vbool true) ValidationMode.hard ""
        (internalValidate stringLeaf (JValue.vbool true) ValidationMode.hard ""
          emptyState).state).result) :=
  ⟨(C4_upgraded_order 5 "u4" numberLeaf stringLeaf Option.none (JValue.vstr "ok")
      ValidationMode.hard "" emptyState).1.1 (by decide),
   (C4_upgraded_order 5 "u4" numberLeaf stringLeaf Option.none (JValue.vbool true)
      ValidationMode.hard "" emptyState).1.2 (by decide) (by decide)⟩

/-! Deprecation-warning accounting: which validations warn, how often, and
with what message. -/

theorem countWarn_nil (uniqueName : String) : countWarn uniqueName [] = 0 := rfl

theorem countWarn_append (uniqueName : String) (a b : List VEvent) :
    countWarn uniqueName (a ++ b) =
    countWarn uniqueName a + countWarn uniqueName b := by
  simp [countWarn, List.filter_append]

theorem countWarn_eq_zero_iff (uniqueName : String) (events : List VEvent) :
    countWarn uniqueName events = 0 ↔
    ∀ m, VEvent.warnLogged uniqueName m ∉ events := by
  rw [countWarn, List.length_eq_zero, List.filter_eq_nil_iff]
  constructor
  · intro h m hm
    have := h _ hm
    simp at this
  · intro h e he
    cases e with
    | warnLogged u m =>
      by_cases hu : u = uniqueName
      · subst hu; exact absurd he (h m)
      · simp [hu]
    | checkedItem p => simp
    | checkedItemAsync p => simp
    | askedYield b => simp
    | yielded => simp

theorem popOracle_warned (st : VState) : (popOracle st).2.warned = st.warned := by
  unfold popOracle
  cases st.oracle <;> rfl

theorem validateItemsSync_warn_clean {f : JValue → String → VState → VOut}
    (uniqueName : String)
    (hfw : ∀ v p s m, VEvent.warnLogged uniqueName m ∉ (f v p s).events)
    (hfc : ∀ v p s, ((f v p s).state.warned.contains uniqueName) =
      (s.warned.contains uniqueName))
    (maxE : Option Nat) (ndsd stop : Bool) (path : String) :
    ∀ elems idx err st,
    (∀ m, VEvent.warnLogged uniqueName m ∉
      (validateItemsSync f maxE ndsd stop path elems idx err st).events) ∧
    ((validateItemsSync f maxE ndsd stop path elems idx err st).state.warned.contains
      uniqueName) = (st.warned.contains uniqueName) := by
  intro elems
  induction elems with
  | nil =>
    intro idx err st
    exact ⟨fun m hm => List.not_mem_nil _ hm, rfl⟩
  | cons a rest ih =>
    intro idx err st
    simp only [validateItemsSync]
    split
    · exact ⟨fun m hm => List.not_mem_nil _ hm, rfl⟩
    · split
      · split
        · refine ⟨fun m hm => ?_, hfc _ _ _⟩
          rcases List.mem_cons.mp hm with hm | hm
          · exact VEvent.noConfusion hm
          · exact hfw _ _ _ m hm
        · obtain ⟨ihw, ihc⟩ := ih (idx + 1)
            (f a (appendPathIndex path idx) st).result
            (f a (appendPathIndex path idx) st).state
          refine ⟨fun m hm => ?_, ihc.trans (hfc _ _ _)⟩
          rcases List.mem_cons.mp hm with hm | hm
          · exact VEvent.noConfusion hm
          · rcases List.mem_append.mp hm with hm | hm
            · exact hfw _ _ _ m hm
            · exact ihw m hm
      · obtain ⟨ihw, ihc⟩ := ih (idx + 1) err
          (f a (appendPathIndex path idx) st).state
        refine ⟨fun m hm => ?_, ihc.trans (hfc _ _ _)⟩
        rcases List.mem_cons.mp hm with hm | hm
        · exact VEvent.noConfusion hm
        · rcases List.mem_append.mp hm with hm | hm
          · exact hfw _ _ _ m hm
          · exact ihw m hm

theorem dispatchEvent_ne_warn (items : ItemValidators) (thr : Nat) (p : String)
    (uniqueName m : String) :
    VEvent.warnLogged uniqueName m ≠ dispatchEvent items thr p := by
  unfold dispatchEvent
  split <;> exact fun h => VEvent.noConfusion h

theorem processChunkItems_warn_clean (items : ItemValidators) (thr : Nat)
    (uniqueName : String)
    (hfw : ∀ v p s m, VEvent.warnLogged uniqueName m ∉
      (dispatchItem items thr v p s).events)
    (hfc : ∀ v p s, ((dispatchItem items thr v p s).state.warned.contains uniqueName) =
      (s.warned.contains uniqueName))
    (maxE : Option Nat) (ndsd stop : Bool) (path : String) (elems : List JValue) :
    ∀ count idx err st,
    (∀ m, VEvent.warnLogged uniqueName m ∉
      (processChunkItems items thr maxE ndsd stop path elems idx count err st).events) ∧
    ((processChunkItems items thr maxE ndsd stop path elems idx count err st).state.warned.contains
      uniqueName) = (st.warned.contains uniqueName) := by
  intro count
  induction count with
  | zero =>
    intro idx err st
    exact ⟨fun m hm => List.not_mem_nil _ hm, rfl⟩
  | succ c ih =>
    intro idx err st
    simp only [processChunkItems]
    split
    · exact ⟨fun m hm => List.not_mem_nil _ hm, rfl⟩
    · split
      · split
        · refine ⟨fun m hm => ?_, hfc _ _ _⟩
          rcases List.mem_cons.mp hm with hm | hm
          · exact dispatchEvent_ne_warn items thr _ uniqueName m hm
          · exact hfw _ _ _ m hm
        · obtain ⟨ihw, ihc⟩ := ih (idx + 1)
            (dispatchItem items thr (elems.getD idx JValue.vundefined)
              (appendPathIndex path idx) st).result
            (dispatchItem items thr (elems.getD idx JValue.vundefined)
              (appendPathIndex path idx) st).state
          refine ⟨fun m hm => ?_, ihc.trans (hfc _ _ _)⟩
          rcases List.mem_cons.mp hm with hm | hm
          · exact dispatchEvent_ne_warn items thr _ uniqueName m hm
          · rcases List.mem_append.mp hm with hm | hm
            · exact hfw _ _ _ m hm
            · exact ihw m hm
      · obtain ⟨ihw, ihc⟩ := ih (idx + 1) err
          (dispatchItem items thr (elems.getD idx JValue.vundefined)
            (appendPathIndex path idx) st).state
        refine ⟨fun m hm => ?_, ihc.trans (hfc _ _ _)⟩
        rcases List.mem_cons.mp hm with hm | hm
        · exact dispatchEvent_ne_warn items thr _ uniqueName m hm
        · rcases List.mem_append.mp hm with hm | hm
          · exact hfw _ _ _ m hm
          · exact ihw m hm

theorem processAllChunks_warn_clean (items : ItemValidators) (thr : Nat)
    (uniqueName : String)
    (hfw : ∀ v p s m, VEvent.warnLogged uniqueName m ∉
      (dispatchItem items thr v p s).events)
    (hfc : ∀ v p s, ((dispatchItem items thr v p s).state.warned.contains uniqueName) =
      (s.warned.contains uniqueName))
    (maxE : Option Nat) (ndsd stop : Bool) (path : String) (elems : List JValue)
    (chunkSize numValues : Nat) :
    ∀ fuel start err st,
    (∀ m, VEvent.warnLogged uniqueName m ∉
      (processAllChunks items thr maxE ndsd stop path elems chunkSize numValues
        fuel start err st).events) ∧
    ((processAllChunks items thr maxE ndsd stop path elems chunkSize numValues
        fuel start err st).state.warned.contains uniqueName) =
      (st.warned.contains uniqueName) := by
  intro fuel
  induction fuel with
  | zero =>
    intro start err st
    exact ⟨fun m hm => List.not_mem_nil _ hm, rfl⟩
  | succ f ih =>
    intro start err st
    simp only [processAllChunks, processChunk]
    split
    · obtain ⟨cw, cc⟩ := processChunkItems_warn_clean items thr uniqueName hfw hfc
        maxE ndsd stop path elems (min (start + chunkSize) numValues - start)
        start err (popOracle st).2
    

      have hyield : ∀ m, VEvent.warnLogged uniqueName m ∉
          (VEvent.askedYield (popOracle st).1 ::
            (if (popOracle st).1 = true then [VEvent.yielded] else [])) := by
        intro m hm
        rcases List.mem_cons.mp hm with hm | hm
        · exact VEvent.noConfusion hm
        · split at hm
          · rcases List.mem_cons.mp hm with hm | hm
            · exact VEvent.noConfusion hm
            · exact List.not_mem_nil _ hm
          · exact List.not_mem_nil _ hm
      have hcc : ((processChunkItems items thr maxE ndsd stop path elems start
          (min (start + chunkSize) numValues - start) err (popOracle st).2).state.warned.contains
          uniqueName) = (st.warned.contains uniqueName) := by
        rw [cc, popOracle_warned]
      split
      · refine ⟨fun m hm => ?_, hcc⟩
        rcases List.mem_append.mp hm with hm | hm
        · exact hyield m hm
        · exact cw m hm
      · obtain ⟨ihw, ihc⟩ := ih (start + chunkSize)
          (processChunkItems items thr maxE ndsd stop path elems start
            (min (start + chunkSize) numValues - start) err (popOracle st).2).errorResult
          (processChunkItems items thr maxE ndsd stop path elems start
            (min (start + chunkSize) numValues - start) err (popOracle st).2).state
        refine ⟨fun m hm => ?_, ihc.trans hcc⟩
        rcases List.mem_append.mp hm with hm | hm
        · rcases List.mem_append.mp hm with hm | hm
          · exact hyield m hm
          · exact cw m hm
        · exact ihw m hm
    · exact ⟨fun m hm => List.not_mem_nil _ hm, rfl⟩

theorem validateArrayCore_shape_none (minL : Nat) (maxL maxE : Option Nat)
    (ndsd : Bool) (v : JValue) (mode : ValidationMode) (path : String)
    (st : VState) :
    ∃ r, validateArrayCore Option.none minL maxL maxE ndsd v mode path st =
      { result := r, state := st, events := [] } := by
  cases v <;> simp only [validateArrayCore] <;>
    first
      | exact ⟨_, rfl⟩
      | ((repeat' split) <;> exact ⟨_, rfl⟩)

theorem validateArrayCore_shape_some (fn : JValue → String → VState → VOut)
    (minL : Nat) (maxL maxE : Option Nat) (ndsd : Bool) (elems : List JValue)
    (mode : ValidationMode) (path : String) (st : VState) :
    (∃ r, validateArrayCore (some fn) minL maxL maxE ndsd (JValue.varr elems)
      mode path st = { result := r, state := st, events := [] }) ∨
    (∃ err, validateArrayCore (some fn) minL maxL maxE ndsd (JValue.varr elems)
      mode path st =
      validateItemsSync fn maxE ndsd
        (decide (mode = ValidationMode.hard) || !ndsd) path elems 0 err st) := by
  simp only [validateArrayCore]
  repeat' split
  all_goals first
    | exact Or.inl ⟨_, rfl⟩
    | exact Or.inr ⟨_, rfl⟩

theorem asyncValidateArrayCore_shape_none (minL : Nat) (maxL maxE : Option Nat)
    (ndsd : Bool) (thr : Nat) (v : JValue) (mode : ValidationMode)
    (path : String) (st : VState) :
    ∃ r, asyncValidateArrayCore Option.none minL maxL maxE ndsd thr v mode
      path st = { result := r, state := st, events := [] } := by
  cases v <;> simp only [asyncValidateArrayCore] <;>
    first
      | exact ⟨_, rfl⟩
      | ((repeat' split) <;> exact ⟨_, rfl⟩)

theorem asyncValidateArrayCore_shape_some (itemFns : ItemValidators)
    (minL : Nat) (maxL maxE : Option Nat) (ndsd : Bool) (thr : Nat)
    (elems : List JValue) (mode : ValidationMode) (path : String)
    (st : VState) :
    (∃ r, asyncValidateArrayCore (some itemFns) minL maxL maxE ndsd thr
      (JValue.varr elems) mode path st = { result := r, state := st, events := [] }) ∨
    (∃ err, asyncValidateArrayCore (some itemFns) minL maxL maxE ndsd thr
      (JValue.varr elems) mode path st =
      processAllChunks itemFns thr maxE ndsd
        (decide (mode = ValidationMode.hard) || !ndsd) path elems
        (max 1 (thr / itemFns.cost)) elems.length elems.length 0 err st) := by
  simp only [asyncValidateArrayCore]
  repeat' split
  all_goals first
    | exact Or.inl ⟨_, rfl⟩
    | exact Or.inr ⟨_, rfl⟩

theorem contains_append_eq (l1 l2 : List String) (u : String) :
    (l1 ++ l2).contains u = (l1.contains u || l2.contains u) := by
  simp [List.contains, List.elem_eq_mem, List.mem_append, Bool.decide_or]

theorem contains_singleton_ne {u name : String} (h : u ≠ name) :
    ([name] : List String).contains u = false := by
  simp only [List.contains, List.elem_eq_mem, List.mem_singleton]
  exact decide_eq_false h

theorem upgradedAfterNew_warn_clean {uniqueName name : String}
    (hname : uniqueName ≠ name) {dl : Option String} {v : JValue}
    {newOut : VOut} {validateOld : VState → VOut} {st : VState}
    (nw : ∀ m, VEvent.warnLogged uniqueName m ∉ newOut.events)
    (nc : (newOut.state.warned.contains uniqueName) = (st.warned.contains uniqueName))
    (ow : ∀ s1 m, VEvent.warnLogged uniqueName m ∉ (validateOld s1).events)
    (oc : ∀ s1, ((validateOld s1).state.warned.contains uniqueName) =
      (s1.warned.contains uniqueName)) :
    (∀ m, VEvent.warnLogged uniqueName m ∉
      (upgradedAfterNew name dl v newOut validateOld).events) ∧
    ((upgradedAfterNew name dl v newOut validateOld).state.warned.contains uniqueName) =
      (st.warned.contains uniqueName) := by
  simp only [upgradedAfterNew]
  split
  · exact ⟨nw, nc⟩
  · split
    · split
      · refine ⟨fun m hm => ?_, ?_⟩
        · rcases List.mem_append.mp hm with hm | hm
          · rcases List.mem_append.mp hm with hm | hm
            · exact nw m hm
            · exact ow _ m hm
          · rcases List.mem_cons.mp hm with hm | hm
            · cases hm
              exact hname rfl
            · exact List.not_mem_nil _ hm
        · show ((validateOld newOut.state).state.warned ++ [name]).contains uniqueName =
              st.warned.contains uniqueName
          rw [contains_append_eq, contains_singleton_ne hname, Bool.or_false,
              oc, nc]
      · refine ⟨fun m hm => ?_, (oc _).trans nc⟩
        rcases List.mem_append.mp hm with hm | hm
        · exact nw m hm
        · exact ow _ m hm
    · refine ⟨fun m hm => ?_, (oc _).trans nc⟩
      rcases List.mem_append.mp hm with hm | hm
      · exact nw m hm
      · exact ow _ m hm

/-- A validation of a schema that does not use `uniqueName` logs no warning
with that name and leaves its membership in the warned set unchanged
(synchronous path). -/
theorem internalValidate_warn_clean (uniqueName : String) :
    ∀ s, uniqueName ∉ namesUsed s → ∀ v mode path st,
    (∀ m, VEvent.warnLogged uniqueName m ∉
      (internalValidate s v mode path st).events) ∧
    ((internalValidate s v mode path st).state.warned.contains uniqueName) =
      (st.warned.contains uniqueName) := by
  intro s
  induction s using Schema.inductionOn with
  | leaf check cost serDes =>
    intro _ v mode path st
    exact ⟨fun m hm => List.not_mem_nil _ hm, rfl⟩
  | arrayNone minL maxL maxE =>
    intro _ v mode path st
    simp only [internalValidate]
    obtain ⟨r, hr⟩ := validateArrayCore_shape_none minL maxL maxE false v mode path st
    rw [hr]
    exact ⟨fun m hm => List.not_mem_nil _ hm, rfl⟩
  | arraySome itemSchema minL maxL maxE ih =>
    intro hn v mode path st
    have hni : uniqueName ∉ namesUsed itemSchema := by
      simpa [namesUsed] using hn
    have hfw : ∀ v1 p s m, VEvent.warnLogged uniqueName m ∉
        ((fun item p1 s1 => internalValidate itemSchema item mode p1 s1) v1 p s).events :=
      fun v1 p s m => (ih hni v1 mode p s).1 m
    have hfc : ∀ v1 p s,
        (((fun item p1 s1 => internalValidate itemSchema item mode p1 s1) v1 p s).state.warned.contains
          uniqueName) = (s.warned.contains uniqueName) :=
      fun v1 p s => (ih hni v1 mode p s).2
    cases v with
    | varr elems =>
      simp only [internalValidate]
      rcases validateArrayCore_shape_some
          (fun item p1 s1 => internalValidate itemSchema item mode p1 s1)
          minL maxL maxE itemSchema.usesCustomSerDes elems mode path st with
        ⟨r, hr⟩ | ⟨err, hr⟩
      · rw [hr]
        exact ⟨fun m hm => List.not_mem_nil _ hm, rfl⟩
      · rw [hr]
        exact validateItemsSync_warn_clean uniqueName hfw hfc maxE
          itemSchema.usesCustomSerDes _ path elems 0 err st
    | vnull => exact ⟨fun m hm => List.not_mem_nil _ hm, rfl⟩
    | vundefined => exact ⟨fun m hm => List.not_mem_nil _ hm, rfl⟩
    | vbool b => exact ⟨fun m hm => List.not_mem_nil _ hm, rfl⟩
    | vnum n1 => exact ⟨fun m hm => List.not_mem_nil _ hm, rfl⟩
    | vstr s1 => exact ⟨fun m hm => List.not_mem_nil _ hm, rfl⟩
  | upgraded name o n dl iho ihn =>
    intro hn v mode path st
    have hname : uniqueName ≠ name := by
      intro hcon
      exact hn (by rw [hcon]; exact List.mem_cons_self _ _)
    have hno : uniqueName ∉ namesUsed o := by
      intro hcon
      exact hn (List.mem_cons_of_mem _ (List.mem_append.mpr (Or.inl hcon)))
    have hnn : uniqueName ∉ namesUsed n := by
      intro hcon
      exact hn (List.mem_cons_of_mem _ (List.mem_append.mpr (Or.inr hcon)))
    obtain ⟨nw, nc⟩ := ihn hnn v mode path st
    simp only [internalValidate, upgradedAfterNew]
    split
    · exact ⟨nw, nc⟩
    · obtain ⟨ow, oc⟩ := iho hno v mode path
        (internalValidate n v mode path st).state
      split
      · split
        · refine ⟨fun m hm => ?_, ?_⟩
          · rcases List.mem_append.mp hm with hm | hm
            · rcases List.mem_append.mp hm with hm | hm
              · exact nw m hm
              · exact ow m hm
            · rcases List.mem_cons.mp hm with hm | hm
              · cases hm
                exact hname rfl
              · exact List.not_mem_nil _ hm
          · show ((internalValidate o v mode path
                (internalValidate n v mode path st).state).state.warned ++
                [name]).contains uniqueName = st.warned.contains uniqueName
            rw [contains_append_eq, contains_singleton_ne hname, Bool.or_false,
              oc, nc]
        · refine ⟨fun m hm => ?_, oc.trans nc⟩
          rcases List.mem_append.mp hm with hm | hm
          · exact nw m hm
          · exact ow m hm
      · refine ⟨fun m hm => ?_, oc.trans nc⟩
        rcases List.mem_append.mp hm with hm | hm
        · exact nw m hm
        · exact ow m hm

/-- A validation of a schema that does not use `uniqueName` logs no warning
with that name and leaves its membership in the warned set unchanged
(asynchronous path). -/
theorem internalValidateAsync_warn_clean (thr : Nat) (uniqueName : String) :
    ∀ s, uniqueName ∉ namesUsed s → ∀ v mode path st,
    (∀ m, VEvent.warnLogged uniqueName m ∉
      (internalValidateAsync thr s v mode path st).events) ∧
    ((internalValidateAsync thr s v mode path st).state.warned.contains uniqueName) =
      (st.warned.contains uniqueName) := by
  intro s
  induction s using Schema.inductionOn with
  | leaf check cost serDes =>
    intro _ v mode path st
    exact ⟨fun m hm => List.not_mem_nil _ hm, rfl⟩
  | arrayNone minL maxL maxE =>
    intro _ v mode path st
    simp only [internalValidateAsync]
    obtain ⟨r, hr⟩ := asyncValidateArrayCore_shape_none minL maxL maxE false thr
      v mode path st
    rw [hr]
    exact ⟨fun m hm => List.not_mem_nil _ hm, rfl⟩
  | arraySome itemSchema minL maxL maxE ih =>
    intro hn v mode path st
    have hni : uniqueName ∉ namesUsed itemSchema := by
      simpa [namesUsed] using hn
    have hfw : ∀ v1 p s m, VEvent.warnLogged uniqueName m ∉
        (dispatchItem
          { runSync := fun item p1 s1 => internalValidate itemSchema item mode p1 s1,
            runAsync := fun item p1 s1 => internalValidateAsync thr itemSchema item mode p1 s1,
            cost := itemSchema.estimatedValidationTimeComplexity } thr v1 p s).events := by
      intro v1 p s m
      unfold dispatchItem
      split
      · exact (ih hni v1 mode p s).1 m
      · exact (internalValidate_warn_clean uniqueName itemSchema hni v1 mode p s).1 m
    have hfc : ∀ v1 p s,
        ((dispatchItem
          { runSync := fun item p1 s1 => internalValidate itemSchema item mode p1 s1,
            runAsync := fun item p1 s1 => internalValidateAsync thr itemSchema item mode p1 s1,
            cost := itemSchema.estimatedValidationTimeComplexity } thr v1 p s).state.warned.contains
          uniqueName) = (s.warned.contains uniqueName) := by
      intro v1 p s
      unfold dispatchItem
      split
      · exact (ih hni v1 mode p s).2
      · exact (internalValidate_warn_clean uniqueName itemSchema hni v1 mode p s).2
    cases v with
    | varr elems =>
      simp only [internalValidateAsync]
      rcases asyncValidateArrayCore_shape_some
          { runSync := fun item p1 s1 => internalValidate itemSchema item mode p1 s1,
            runAsync := fun item p1 s1 => internalValidateAsync thr itemSchema item mode p1 s1,
            cost := itemSchema.estimatedValidationTimeComplexity }
          minL maxL maxE itemSchema.usesCustomSerDes thr elems mode path st with
        ⟨r, hr⟩ | ⟨err, hr⟩
      · rw [hr]
        exact ⟨fun m hm => List.not_mem_nil _ hm, rfl⟩
      · rw [hr]
        exact processAllChunks_warn_clean _ thr uniqueName hfw hfc maxE
          itemSchema.usesCustomSerDes _ path elems _ elems.length elems.length
          0 err st
    | vnull => exact ⟨fun m hm => List.not_mem_nil _ hm, rfl⟩
    | vundefined => exact ⟨fun m hm => List.not_mem_nil _ hm, rfl⟩
    | vbool b => exact ⟨fun m hm => List.not_mem_nil _ hm, rfl⟩
    | vnum n1 => exact ⟨fun m hm => List.not_mem_nil _ hm, rfl⟩
    | vstr s1 => exact ⟨fun m hm => List.not_mem_nil _ hm, rfl⟩
  | upgraded name o n dl iho ihn =>
    intro hn v mode path st
    have hname : uniqueName ≠ name := by
      intro hcon
      exact hn (by rw [hcon]; exact List.mem_cons_self _ _)
    have hno : uniqueName ∉ namesUsed o := by
      intro hcon
      exact hn (List.mem_cons_of_mem _ (List.mem_append.mpr (Or.inl hcon)))
    have hnn : uniqueName ∉ namesUsed n := by
      intro hcon
      exact hn (List.mem_cons_of_mem _ (List.mem_append.mpr (Or.inr hcon)))
    simp only [internalValidateAsync]
    apply upgradedAfterNew_warn_clean hname
    · intro m
      split
      · exact (ihn hnn v mode path st).1 m
      · exact (internalValidate_warn_clean uniqueName n hnn v mode path st).1 m
    · split
      · exact (ihn hnn v mode path st).2
      · exact (internalValidate_warn_clean uniqueName n hnn v mode path st).2
    · intro s1 m
      split
      · exact (iho hno v mode path s1).1 m
      · exact (internalValidate_warn_clean uniqueName o hno v mode path s1).1 m
    · intro s1
      split
      · exact (iho hno v mode path s1).2
      · exact (internalValidate_warn_clean uniqueName o hno v mode path s1).2

theorem countWarn_singleton_self (uniqueName m : String) :
    countWarn uniqueName [VEvent.warnLogged uniqueName m] = 1 := by
  simp [countWarn]

/-- One call of the upgraded combinator tail: a warning for its own
`uniqueName` is logged exactly when the new schema rejected, the old schema
accepted, the value is not `undefined`, and the name was not yet warned
about; the name's membership in the warned set afterwards is its previous
membership or that trigger; and any logged warning carries the deprecation
message. -/
theorem upgradedAfterNew_warn_char {uniqueName : String} (dl : Option String)
    (v : JValue) (newOut : VOut) (validateOld : VState → VOut) (st : VState)
    (acceptN acceptO : Bool)
    (nw : ∀ m, VEvent.warnLogged uniqueName m ∉ newOut.events)
    (nc : newOut.state.warned.contains uniqueName = st.warned.contains uniqueName)
    (ow : ∀ s1 m, VEvent.warnLogged uniqueName m ∉ (validateOld s1).events)
    (oc : ∀ s1, (validateOld s1).state.warned.contains uniqueName =
      s1.warned.contains uniqueName)
    (hrn : newOut.result.isNone = acceptN)
    (hro : (validateOld newOut.state).result.isNone = acceptO) :
    countWarn uniqueName (upgradedAfterNew uniqueName dl v newOut validateOld).events =
      (if ((!acceptN && acceptO) && !isUndefined v) = true ∧
          st.warned.contains uniqueName = false then 1 else 0) ∧
    ((upgradedAfterNew uniqueName dl v newOut validateOld).state.warned.contains
      uniqueName) = (st.warned.contains uniqueName || ((!acceptN && acceptO) && !isUndefined v)) ∧
    (∀ m, VEvent.warnLogged uniqueName m ∈
      (upgradedAfterNew uniqueName dl v newOut validateOld).events →
      m = deprecationMessage uniqueName dl) := by
  simp only [upgradedAfterNew]
  by_cases h1 : newOut.result = Option.none
  · have han : acceptN = true := by rw [← hrn, h1]; rfl
    rw [if_pos h1]
    refine ⟨?_, ?_, ?_⟩
    · rw [(countWarn_eq_zero_iff uniqueName newOut.events).mpr nw]
      rw [han]
      simp
    · rw [nc, han]
      simp
    · intro m hm
      exact absurd hm (nw m)
  · have han : acceptN = false := by
      rw [← hrn]
      cases hne : newOut.result with
      | none => exact absurd hne h1
      | some e => rfl
    rw [if_neg h1]
    by_cases h2 : (validateOld newOut.state).result = Option.none
    · have hao : acceptO = true := by rw [← hro, h2]; rfl
      rw [if_pos h2]
      by_cases h3 : (!isUndefined v &&
          !(validateOld newOut.state).state.warned.contains uniqueName) = true
      · have h3a : isUndefined v = false := by
          rcases Bool.eq_false_or_eq_true (isUndefined v) with hx | hx
          · rw [hx] at h3; simp at h3
          · exact hx
        have h3b : (validateOld newOut.state).state.warned.contains uniqueName =
            false := by
          rcases Bool.eq_false_or_eq_true
              ((validateOld newOut.state).state.warned.contains uniqueName) with hx | hx
          · rw [hx] at h3; simp at h3
          · exact hx
        have hcontains : st.warned.contains uniqueName = false := by
          rw [← nc, ← oc newOut.state]
          exact h3b
        rw [if_pos h3]
        refine ⟨?_, ?_, ?_⟩
        · show countWarn uniqueName (newOut.events ++ (validateOld newOut.state).events ++
            [VEvent.warnLogged uniqueName (deprecationMessage uniqueName dl)]) = _
          rw [countWarn_append, countWarn_append]
          rw [(countWarn_eq_zero_iff uniqueName newOut.events).mpr nw]
          rw [(countWarn_eq_zero_iff uniqueName (validateOld newOut.state).events).mpr
            (ow newOut.state)]
          rw [countWarn_singleton_self]
          rw [han, hao, hcontains, h3a]
          simp
        · show (((validateOld newOut.state).state.warned ++ [uniqueName]).contains
            uniqueName) = _
          rw [contains_append_eq]
          have hself : ([uniqueName] : List String).contains uniqueName = true := by
            simp [List.contains, List.elem_eq_mem]
          rw [hself, Bool.or_true, hcontains, han, hao, h3a]
          simp
        · intro m hm
          rcases List.mem_append.mp hm with hm | hm
          · rcases List.mem_append.mp hm with hm | hm
            · exact absurd hm (nw m)
            · exact absurd hm (ow newOut.state m)
          · rcases List.mem_cons.mp hm with hm | hm
            · cases hm; rfl
            · exact absurd hm (List.not_mem_nil _)
      · rw [if_neg h3]
        have hnowarn : ∀ m, VEvent.warnLogged uniqueName m ∉
            (newOut.events ++ (validateOld newOut.state).events) := by
          intro m hm
          rcases List.mem_append.mp hm with hm | hm
          · exact nw m hm
          · exact ow newOut.state m hm
        have h3' : isUndefined v = true ∨
            (validateOld newOut.state).state.warned.contains uniqueName = true := by
          rcases Bool.eq_false_or_eq_true (isUndefined v) with hu | hu
          · exact Or.inl hu
          · rcases Bool.eq_false_or_eq_true
                ((validateOld newOut.state).state.warned.contains uniqueName) with hc | hc
            · exact Or.inr hc
            · exfalso; apply h3; rw [hu, hc]; rfl
        refine ⟨?_, ?_, ?_⟩
        · rw [(countWarn_eq_zero_iff uniqueName _).mpr hnowarn]
          rcases h3' with hu | hc
          · rw [hu]
            simp
          · have : st.warned.contains uniqueName = true := by
              rw [← nc, ← oc newOut.state]; exact hc
            rw [this]
            simp
        · rw [(oc newOut.state).trans nc]
          rcases h3' with hu | hc
          · rw [hu]
            simp
          · have : st.warned.contains uniqueName = true := by
              rw [← nc, ← oc newOut.state]; exact hc
            rw [this]
            simp
        · intro m hm
          exact absurd hm (hnowarn m)
    · have hao : acceptO = false := by
        rw [← hro]
        cases hoe : (validateOld newOut.state).result with
        | none => exact absurd hoe h2
        | some e => rfl
      rw [if_neg h2]
      have hnowarn : ∀ m, VEvent.warnLogged uniqueName m ∉
          (newOut.events ++ (validateOld newOut.state).events) := by
        intro m hm
        rcases List.mem_append.mp hm with hm | hm
        · exact nw m hm
        · exact ow newOut.state m hm
      refine ⟨?_, ?_, ?_⟩
      · rw [(countWarn_eq_zero_iff uniqueName _).mpr hnowarn]
        rw [hao]
        simp
      · rw [(oc newOut.state).trans nc, hao]
        simp
      · intro m hm
        exact absurd hm (hnowarn m)

theorem upgraded_sync_call_char (thr : Nat) (name : String) (o n : Schema)
    (dl : Option String) (hno : name ∉ namesUsed o) (hnn : name ∉ namesUsed n)
    (v : JValue) (mode : ValidationMode) (path : String) (st : VState) :
    countWarn name (internalValidate (Schema.upgraded name o n dl) v mode path st).events =
      (if (triggersUpgradeWarning thr o n mode path false v) = true ∧
          st.warned.contains name = false then 1 else 0) ∧
    ((internalValidate (Schema.upgraded name o n dl) v mode path st).state.warned.contains
      name) = (st.warned.contains name || triggersUpgradeWarning thr o n mode path false v) ∧
    (∀ m, VEvent.warnLogged name m ∈
      (internalValidate (Schema.upgraded name o n dl) v mode path st).events →
      m = deprecationMessage name dl) := by
  simp only [internalValidate]
  exact upgradedAfterNew_warn_char dl v (internalValidate n v mode path st)
    (fun st1 => internalValidate o v mode path st1) st
    (syncAccepts n v mode path) (syncAccepts o v mode path)
    (fun m => (internalValidate_warn_clean name n hnn v mode path st).1 m)
    (internalValidate_warn_clean name n hnn v mode path st).2
    (fun s1 m => (internalValidate_warn_clean name o hno v mode path s1).1 m)
    (fun s1 => (internalValidate_warn_clean name o hno v mode path s1).2)
    (congrArg Option.isNone
      (internalValidate_result_stable n v mode path st { warned := [], oracle := [] }))
    (congrArg Option.isNone
      (internalValidate_result_stable o v mode path _ { warned := [], oracle := [] }))

theorem upgraded_async_call_char (thr : Nat) (name : String) (o n : Schema)
    (dl : Option String) (hno : name ∉ namesUsed o) (hnn : name ∉ namesUsed n)
    (v : JValue) (mode : ValidationMode) (path : String) (st : VState) :
    countWarn name (internalValidateAsync thr (Schema.upgraded name o n dl) v mode path st).events =
      (if (triggersUpgradeWarning thr o n mode path true v) = true ∧
          st.warned.contains name = false then 1 else 0) ∧
    ((internalValidateAsync thr (Schema.upgraded name o n dl) v mode path st).state.warned.contains
      name) = (st.warned.contains name || triggersUpgradeWarning thr o n mode path true v) ∧
    (∀ m, VEvent.warnLogged name m ∈
      (internalValidateAsync thr (Schema.upgraded name o n dl) v mode path st).events →
      m = deprecationMessage name dl) := by
  simp only [internalValidateAsync]
  refine upgradedAfterNew_warn_char dl v _ _ st
    (dispatchAccepts thr n v mode path) (dispatchAccepts thr o v mode path)
    ?_ ?_ ?_ ?_ ?_ ?_
  · intro m
    split
    · exact (internalValidateAsync_warn_clean thr name n hnn v mode path st).1 m
    · exact (internalValidate_warn_clean name n hnn v mode path st).1 m
  · split
    · exact (internalValidateAsync_warn_clean thr name n hnn v mode path st).2
    · exact (internalValidate_warn_clean name n hnn v mode path st).2
  · intro s1 m
    split
    · exact (internalValidateAsync_warn_clean thr name o hno v mode path s1).1 m
    · exact (internalValidate_warn_clean name o hno v mode path s1).1 m
  · intro s1
    split
    · exact (internalValidateAsync_warn_clean thr name o hno v mode path s1).2
    · exact (internalValidate_warn_clean name o hno v mode path s1).2
  · unfold dispatchAccepts
    by_cases hcn : n.estimatedValidationTimeComplexity > thr
    · rw [if_pos hcn, if_pos hcn]
      exact congrArg Option.isNone
        (internalValidateAsync_result_stable thr n v mode path st
          { warned := [], oracle := [] })
    · rw [if_neg hcn, if_neg hcn]
      exact congrArg Option.isNone
        (internalValidate_result_stable n v mode path st
          { warned := [], oracle := [] })
  · unfold dispatchAccepts
    by_cases hco : o.estimatedValidationTimeComplexity > thr
    · rw [if_pos hco, if_pos hco]
      exact congrArg Option.isNone
        (internalValidateAsync_result_stable thr o v mode path _
          { warned := [], oracle := [] })
    · rw [if_neg hco, if_neg hco]
      exact congrArg Option.isNone
        (internalValidate_result_stable o v mode path _
          { warned := [], oracle := [] })

theorem runSeq_warn_absorbed (thr : Nat) (name : String) (o n : Schema)
    (dl : Option String) (hno : name ∉ namesUsed o) (hnn : name ∉ namesUsed n)
    (mode : ValidationMode) (path : String) :
    ∀ calls st, st.warned.contains name = true →
    countWarn name (runSeq thr (Schema.upgraded name o n dl) mode path calls st).2 = 0 := by
  intro calls
  induction calls with
  | nil => intro st _; rfl
  | cons c rest ih =>
    intro st hst
    obtain ⟨useAsync, v⟩ := c
    simp only [runSeq]
    cases useAsync with
    | true =>
      rw [if_pos rfl, countWarn_append]
      obtain ⟨hcount, hcontains, _⟩ := upgraded_async_call_char thr name o n dl
        hno hnn v mode path st
      rw [hcount, if_neg (fun hcon => Bool.noConfusion (hst.symm.trans hcon.2)),
        ih _ (by rw [hcontains, hst]; rfl)]
    | false =>
      rw [if_neg Bool.false_ne_true, countWarn_append]
      obtain ⟨hcount, hcontains, _⟩ := upgraded_sync_call_char thr name o n dl
        hno hnn v mode path st
      rw [hcount, if_neg (fun hcon => Bool.noConfusion (hst.symm.trans hcon.2)),
        ih _ (by rw [hcontains, hst]; rfl)]

/-- C5: across any sequence of validations of one upgraded combinator within
one process (each call synchronous or asynchronous), a deprecation warning
for its `uniqueName` is logged exactly once if some call is a trigger — a
value other than `undefined`, rejected by the new schema and accepted by the
old one — and never otherwise (in particular, values accepted by the new
schema never trigger); and every logged warning carries the unique name with
the `after <deadline>` / `soon` message. -/
theorem C5_warn_once_per_unique_name (thr : Nat) (name : String) (o n : Schema)
    (dl : Option String) (mode : ValidationMode) (path : String)
    (calls : List (Bool × JValue)) (st : VState)
    (hno : name ∉ namesUsed o) (hnn : name ∉ namesUsed n)
    (hst : st.warned.contains name = false) :
    countWarn name (runSeq thr (Schema.upgraded name o n dl) mode path calls st).2 =
      (if calls.any (fun c => triggersUpgradeWarning thr o n mode path c.1 c.2)
        then 1 else 0) ∧
    (∀ m, VEvent.warnLogged name m ∈
      (runSeq thr (Schema.upgraded name o n dl) mode path calls st).2 →
      m = deprecationMessage name dl) := by
  induction calls generalizing st with
  | nil =>
    exact ⟨rfl, fun m hm => absurd hm (List.not_mem_nil _)⟩
  | cons c rest ih =>
    obtain ⟨useAsync, v⟩ := c
    simp only [runSeq, List.any_cons]
    cases useAsync with
    | true =>
      rw [if_pos rfl, countWarn_append]
      obtain ⟨hcount, hcontains, hmsg⟩ := upgraded_async_call_char thr name o n dl
        hno hnn v mode path st
      rcases Bool.eq_false_or_eq_true
          (triggersUpgradeWarning thr o n mode path true v) with htrig | htrig
      · have hc1 : (internalValidateAsync thr (Schema.upgraded name o n dl) v mode
            path st).state.warned.contains name = true := by
          rw [hcontains, hst, htrig]; rfl
        have habs := runSeq_warn_absorbed thr name o n dl hno hnn mode path rest _ hc1
        refine ⟨?_, ?_⟩
        · rw [hcount, if_pos ⟨htrig, hst⟩, habs, Nat.add_zero]
          exact (if_pos (by rw [htrig, Bool.true_or])).symm
        · intro m hm
          rcases List.mem_append.mp hm with hm1 | hm2
          · exact hmsg m hm1
          · exact absurd hm2 ((countWarn_eq_zero_iff name _).mp habs m)
      · have hc0 : (internalValidateAsync thr (Schema.upgraded name o n dl) v mode
            path st).state.warned.contains name = false := by
          rw [hcontains, hst, htrig]; rfl
        obtain ⟨ihc, ihm⟩ := ih _ hc0
        refine ⟨?_, ?_⟩
        · rw [hcount, if_neg (fun hcon => Bool.noConfusion (htrig.symm.trans hcon.1)),
            ihc, Nat.zero_add]
          exact if_congr (by rw [htrig, Bool.false_or]) rfl rfl
        · intro m hm
          rcases List.mem_append.mp hm with hm1 | hm2
          · exact hmsg m hm1
          · exact ihm m hm2
    | false =>
      rw [if_neg Bool.false_ne_true, countWarn_append]
      obtain ⟨hcount, hcontains, hmsg⟩ := upgraded_sync_call_char thr name o n dl
        hno hnn v mode path st
      rcases Bool.eq_false_or_eq_true
          (triggersUpgradeWarning thr o n mode path false v) with htrig | htrig
      · have hc1 : (internalValidate (Schema.upgraded name o n dl) v mode
            path st).state.warned.contains name = true := by
          rw [hcontains, hst, htrig]; rfl
        have habs := runSeq_warn_absorbed thr name o n dl hno hnn mode path rest _ hc1
        refine ⟨?_, ?_⟩
        · rw [hcount, if_pos ⟨htrig, hst⟩, habs, Nat.add_zero]
          exact (if_pos (by rw [htrig, Bool.true_or])).symm
        · intro m hm
          rcases List.mem_append.mp hm with hm1 | hm2
          · exact hmsg m hm1
          · exact absurd hm2 ((countWarn_eq_zero_iff name _).mp habs m)
      · have hc0 : (internalValidate (Schema.upgraded name o n dl) v mode
            path st).state.warned.contains name = false := by
          rw [hcontains, hst, htrig]; rfl
        obtain ⟨ihc, ihm⟩ := ih _ hc0
        refine ⟨?_, ?_⟩
        · rw [hcount, if_neg (fun hcon => Bool.noConfusion (htrig.symm.trans hcon.1)),
            ihc, Nat.zero_add]
          exact if_congr (by rw [htrig, Bool.false_or]) rfl rfl
        · intro m hm
          rcases List.mem_append.mp hm with hm1 | hm2
          · exact hmsg m hm1
          · exact ihm m hm2

theorem C5_warn_once_per_unique_name_witness :
    countWarn "legacyNum"
      (runSeq 1 (Schema.upgraded "legacyNum" numberLeaf stringLeaf (some "2030-01-01"))
        ValidationMode.hard ""
        [(false, JValue.vnum 1), (true, JValue.vnum 2), (false, JValue.vstr "x")]
        emptyState).2 =
      (if ([(false, JValue.vnum 1), (true, JValue.vnum 2),
            (false, JValue.vstr "x")] : List (Bool × JValue)).any
          (fun c => triggersUpgradeWarning 1 numberLeaf stringLeaf
            ValidationMode.hard "" c.1 c.2)
        then 1 else 0) :=
  (C5_warn_once_per_unique_name 1 "legacyNum" numberLeaf stringLeaf (some "2030-01-01")
    ValidationMode.hard ""
    [(false, JValue.vnum 1), (true, JValue.vnum 2), (false, JValue.vstr "x")]
    emptyState (by decide) (by decide) (by decide)).1

theorem processChunkItems_spec_walk (items : ItemValidators) (thr : Nat)
    (ndsd ssfe : Bool) (path : String) (elems : List JValue)
    (hval : ∀ j, j < elems.length → ∀ s,
      (dispatchItem items thr (elems.getD j JValue.vundefined)
        (appendPathIndex path j) s).result = Option.none) :
    ∀ count index st, index + count ≤ elems.length →
    processChunkItems items thr Option.none ndsd ssfe path elems index count
      Option.none st =
    { signal := ChunkSignal.finished, errorResult := Option.none,
      state := (specChunkElems items.runSync items.runAsync items.cost thr path
        elems index count st).1,
      events := (specChunkElems items.runSync items.runAsync items.cost thr path
        elems index count st).2 } := by
  intro count
  induction count with
  | zero => intro index st _; rfl
  | succ k ih =>
    intro index st hle
    have hv := hval index (by omega) st
    simp only [processChunkItems, specChunkElems, maxEReached, Bool.and_false,
      Bool.false_eq_true, if_false]
    simp only [hv, Option.isSome_none, Bool.false_eq_true, and_false, if_false]
    rw [ih (index + 1)
      (dispatchItem items thr (elems.getD index JValue.vundefined)
        (appendPathIndex path index) st).state (by omega)]
    by_cases hc : items.cost > thr
    · simp only [dispatchItem, dispatchEvent, if_pos hc]
    · simp only [dispatchItem, dispatchEvent, if_neg hc]

theorem processAllChunks_spec_walk (items : ItemValidators) (thr : Nat)
    (ndsd ssfe : Bool) (path : String) (elems : List JValue)
    (hval : ∀ j, j < elems.length → ∀ s,
      (dispatchItem items thr (elems.getD j JValue.vundefined)
        (appendPathIndex path j) s).result = Option.none) :
    ∀ fuel chunkStartIndex st,
    processAllChunks items thr Option.none ndsd ssfe path elems
      (max 1 (thr / items.cost)) elems.length fuel chunkStartIndex
      Option.none st =
    { result := Option.none,
      state := (specChunkedWalk items.runSync items.runAsync items.cost thr path
        elems fuel chunkStartIndex st).1,
      events := (specChunkedWalk items.runSync items.runAsync items.cost thr path
        elems fuel chunkStartIndex st).2 } := by
  intro fuel
  induction fuel with
  | zero => intro csi st; rfl
  | succ f ih =>
    intro csi st
    simp only [processAllChunks, specChunkedWalk]
    by_cases h : csi < elems.length
    · simp only [if_pos h, processChunk]
      rw [processChunkItems_spec_walk items thr ndsd ssfe path elems hval
        (min (csi + max 1 (thr / items.cost)) elems.length - csi) csi
        (popOracle st).2 (by omega)]
      rw [ih (csi + max 1 (thr / items.cost))
        ((specChunkElems items.runSync items.runAsync items.cost thr path elems
          csi (min (csi + max 1 (thr / items.cost)) elems.length - csi)
          (popOracle st).2).1)]
    · simp only [if_neg h]

/-- C7: the asynchronous array validator processes elements in chunks of size
`max(1, floor(asyncTimeComplexityThreshold / itemCost))`; before each chunk
it consults the caller's `shouldYield` predicate and, when it answers true,
suspends via the caller's `yield` primitive; within a chunk each element is
validated with the item schema's asynchronous validator exactly when that
schema's `estimatedValidationTimeComplexity` exceeds the threshold, and with
its synchronous validator otherwise.  On an in-bounds array all of whose
elements are valid the full output — result, final state and event trace —
equals the chunked walk stated from the spec's words. -/
theorem C7_async_chunked_dispatch (thr : Nat) (itemSchema : Schema)
    (minL : Nat) (maxL : Option Nat) (mode : ValidationMode) (path : String)
    (elems : List JValue) (st : VState)
    (hfast : itemSchema.usesCustomSerDes = true ∨ mode ≠ ValidationMode.none)
    (hmin : minL ≤ elems.length)
    (hmax : ∀ m, maxL = some m → elems.length ≤ m)
    (hval : ∀ j, j < elems.length → ∀ s,
      (internalValidate itemSchema (elems.getD j JValue.vundefined) mode
        (appendPathIndex path j) s).result = Option.none) :
    internalValidateAsync thr (Schema.array (some itemSchema) minL maxL
      Option.none) (JValue.varr elems) mode path st =
    { result := Option.none,
      state := (specChunkedWalk
        (fun item p s => internalValidate itemSchema item mode p s)
        (fun item p s => internalValidateAsync thr itemSchema item mode p s)
        itemSchema.estimatedValidationTimeComplexity thr path elems
        elems.length 0 st).1,
      events := (specChunkedWalk
        (fun item p s => internalValidate itemSchema item mode p s)
        (fun item p s => internalValidateAsync thr itemSchema item mode p s)
        itemSchema.estimatedValidationTimeComplexity thr path elems
        elems.length 0 st).2 } := by
  have hdisp : ∀ j, j < elems.length → ∀ s,
      (dispatchItem
        { runSync := fun item p s => internalValidate itemSchema item mode p s,
          runAsync := fun item p s =>
            internalValidateAsync thr itemSchema item mode p s,
          cost := itemSchema.estimatedValidationTimeComplexity } thr
        (elems.getD j JValue.vundefined) (appendPathIndex path j) s).result =
        Option.none := by
    intro j hj s
    dsimp only [dispatchItem]
    by_cases hc : itemSchema.estimatedValidationTimeComplexity > thr
    · rw [if_pos hc]
      by_cases hmode : mode = ValidationMode.none
      · subst hmode
        exact async_none_of_sync_none thr itemSchema
          (elems.getD j JValue.vundefined) (appendPathIndex path j)
          emptyState s (hval j hj emptyState)
      · rw [async_result_eq_sync thr itemSchema
          (elems.getD j JValue.vundefined) mode (appendPathIndex path j) s s
          hmode]
        exact hval j hj s
    · rw [if_neg hc]
      exact hval j hj s
  have h0 : (!itemSchema.usesCustomSerDes &&
      decide (mode = ValidationMode.none)) = false := by
    rcases hfast with h | h
    · rw [h]; rfl
    · simp [h]
  simp only [internalValidateAsync, asyncValidateArrayCore]
  simp only [h0, Bool.false_eq_true, if_false]
  have h1 : ¬(mode ≠ ValidationMode.none ∧ elems.length < minL) :=
    fun hcon => absurd hcon.2 (Nat.not_lt.mpr hmin)
  simp only [if_neg h1, Option.isSome_none, Bool.false_and,
    Bool.false_eq_true, if_false]
  cases maxL with
  | none =>
    simp only [ite_self, Option.isSome_none, Bool.false_and,
      Bool.false_eq_true, if_false]
    exact processAllChunks_spec_walk _ thr itemSchema.usesCustomSerDes
      (decide (mode = ValidationMode.hard) || !itemSchema.usesCustomSerDes)
      path elems hdisp elems.length 0 st
  | some m =>
    have h2 : ¬(elems.length > m) := Nat.not_lt.mpr (hmax m rfl)
    simp only [if_neg h2, ite_self, Option.isSome_none, Bool.false_and,
      Bool.false_eq_true, if_false]
    exact processAllChunks_spec_walk _ thr itemSchema.usesCustomSerDes
      (decide (mode = ValidationMode.hard) || !itemSchema.usesCustomSerDes)
      path elems hdisp elems.length 0 st

theorem C7_async_chunked_dispatch_witness :
    internalValidateAsync 1 (Schema.array (some stringLeaf) 0 Option.none
      Option.none) (JValue.varr [JValue.vstr "a", JValue.vstr "b",
      JValue.vstr "c"]) ValidationMode.hard "" emptyState =
    { result := Option.none,
      state := (specChunkedWalk
        (fun item p s => internalValidate stringLeaf item ValidationMode.hard p s)
        (fun item p s =>
          internalValidateAsync 1 stringLeaf item ValidationMode.hard p s)
        stringLeaf.estimatedValidationTimeComplexity 1 ""
        [JValue.vstr "a", JValue.vstr "b", JValue.vstr "c"]
        ([JValue.vstr "a", JValue.vstr "b", JValue.vstr "c"] : List JValue).length
        0 emptyState).1,
      events := (specChunkedWalk
        (fun item p s => internalValidate stringLeaf item ValidationMode.hard p s)
        (fun item p s =>
          internalValidateAsync 1 stringLeaf item ValidationMode.hard p s)
        stringLeaf.estimatedValidationTimeComplexity 1 ""
        [JValue.vstr "a", JValue.vstr "b", JValue.vstr "c"]
        ([JValue.vstr "a", JValue.vstr "b", JValue.vstr "c"] : List JValue).length
        0 emptyState).2 } :=
  C7_async_chunked_dispatch 1 stringLeaf 0 Option.none ValidationMode.hard ""
    [JValue.vstr "a", JValue.vstr "b", JValue.vstr "c"] emptyState
    (Or.inr (by decide)) (by decide) (fun m h => Option.noConfusion h)
    (by
      intro j hj s
      have hj3 : j < 3 := by simpa using hj
      interval_cases j <;> rfl)

end Yaschema
